import Mathlib

/-!
Verification of the configloader-go structural reconciliation engine.

This file gives a shallow embedding of the core of the repository:
the aliased-key matching substrate (package reflection), the schema
extractor GetStructFields, the map-merge engine (mergeMaps / setMapByKey),
the consistency verifier (verifyFieldsConsistency / fieldTypesConsistent),
and the pieces of the Load orchestrator the claims are about
(document processing, defaults processing, provenance recording,
and the finalize pass over absent fields).

Go machine details that do not matter to the claims are modelled as
follows: strings.EqualFold is modelled as ASCII-lowercase comparison
(all keys in scope are ASCII); Go maps are modelled as association
lists whose iteration order stands in for Go's unspecified map order;
sort.Slice over distinct keys is modelled by insertion sort.
-/

/-- Case-insensitive string comparison, modelling strings.EqualFold
(ASCII fragment), on the character lists so that it evaluates inside
the kernel. -/
def eqFold (a b : String) : Bool :=
  a.data.map Char.toLower == b.data.map Char.toLower

/-- strings.HasPrefix, on the character lists. -/
def strHasPfx (s pre : String) : Bool :=
  pre.data.isPrefixOf s.data

/-- strings.Split(s, ","), on the character lists. -/
def splitTag (s : String) : List String :=
  (s.data.splitOn ',').map String.mk

/-- Lexicographic string order (the order sort.Slice compares Go map
keys with), on the character lists. -/
def charListLE : List Char → List Char → Bool
  | [], _ => true
  | _ :: _, [] => false
  | c1 :: r1, c2 :: r2 =>
    if c1 < c2 then true
    else if c2 < c1 then false
    else charListLE r1 r2

/-- String comparison used to sort map keys during extraction. -/
def strLE (a b : String) : Bool :=
  charListLE a.data b.data

/-- One component of an aliased key: the equivalent spellings of one
path segment (reflection.AliasedKeyElem). -/
abbrev AKElem := List String

/-- A full aliased key path (reflection.AliasedKey). -/
abbrev AKey := List AKElem

/-- reflection.AliasedKeyElem.Equal: true iff some spelling of one
component case-insensitively equals some spelling of the other. -/
def elemEqual (e1 e2 : AKElem) : Bool :=
  e1.any fun a1 => e2.any fun a2 => eqFold a1 a2

/-- reflection.AliasedKey.Equal: equal length and componentwise match. -/
def akEqual : AKey → AKey → Bool
  | [], [] => true
  | e1 :: r1, e2 :: r2 => elemEqual e1 e2 && akEqual r1 r2
  | _, _ => false

/-- reflection.AliasedKey.HasPrefix: the leading components of the key
match the candidate prefix. -/
def akHasPfx (ak pfx : AKey) : Bool :=
  if pfx.length > ak.length then false
  else akEqual (ak.take pfx.length) pfx

/-- A key component is well formed when it is nonempty (the AliasedKey
invariant: no component is empty). -/
def akWF (ak : AKey) : Bool :=
  ak.all fun e => !e.isEmpty

/-- configloader.Key: a plain field path (each segment one spelling). -/
abbrev PKey := List String

/-- configloader.aliasedKeyFromKey. -/
def aliasedKeyFromKey (k : PKey) : AKey :=
  k.map fun s => [s]

/-- configloader.keyFromAliasedKey: prefer the last spelling of each
component (the alias). -/
def keyFromAliasedKey (ak : AKey) : PKey :=
  ak.map fun e => e.getLastD ""

/-- reflection.StructField. The Parent and Children pointers of the Go
struct are not part of this record; where a claim needs the
parent-child structure it is supplied explicitly (see the finalize
model below). -/
structure SField where
  aliasedKey : AKey
  optional : Bool := false
  typ : String := ""
  kind : String := ""
  expectedType : String := ""
  deriving Repr, DecidableEq

/-- configloader.findStructField: first field whose AliasedKey has the
same length as the target and matches it. -/
def findStructField : List SField → AKey → Option SField
  | [], _ => none
  | f :: rest, target =>
    if f.aliasedKey.length ≠ target.length then findStructField rest target
    else if akEqual target f.aliasedKey then some f
    else findStructField rest target

/-- decoder.fieldTypesConsistent from the current source.  The codec
hook (Codec.FieldTypesConsistent) is a parameter: on success it yields
noDeeper, on failure an error message. -/
def fieldTypesConsistent (codecFTC : SField → SField → Except String Bool)
    (check gold : SField) : Except String Bool :=
  if gold.expectedType ≠ "" then
    if check.typ ≠ gold.expectedType && check.kind ≠ gold.expectedType then
      .error "check field type does not match gold expected type"
    else
      .ok true
  else
    let noDeeper := gold.kind == "map"
    if check.typ == gold.typ || check.typ == gold.kind then .ok noDeeper
    else if gold.typ == "*" ++ check.typ then .ok noDeeper
    else if gold.kind == "struct" && check.kind == "map" then .ok noDeeper
    else if gold.kind == "map" && check.typ == "map[string]interface \x7b\x7d" then .ok noDeeper
    else if strHasPfx gold.kind "int" && strHasPfx check.kind "int" then .ok noDeeper
    else if strHasPfx gold.kind "float" && strHasPfx check.kind "float" then .ok noDeeper
    else if gold.kind == "slice" && check.kind == "slice" then .ok true
    else
      match codecFTC check gold with
      | .ok nd => .ok nd
      | .error _ => .error "check field type does not match gold type"

/-- The two error kinds decoder.verifyFieldsConsistency can produce:
a vestigial (unknown) field, or a type inconsistency. -/
inductive VErr where
  | unknownField (checkField : SField)
  | typeMismatch (checkField goldField : SField)
  deriving Repr, DecidableEq

/-- Removal of the matched gold field from absentFieldsCandidates:
drop the first candidate whose key equals the given key. -/
def removeAbsentCandidate (key : AKey) : List SField → List SField
  | [] => []
  | a :: rest =>
    if akEqual a.aliasedKey key then rest
    else a :: removeAbsentCandidate key rest

/-- The CheckFieldsLoop of decoder.verifyFieldsConsistency: walk the
candidate fields, skipping fields under a recorded stop prefix,
failing on a field with no reference match, removing matched reference
fields from the absent candidates, and recording a stop prefix when
the type check says not to go deeper. -/
def verifyLoop (codecFTC : SField → SField → Except String Bool) (gold : List SField) :
    List SField → List SField → List AKey → Except VErr (List SField × List AKey)
  | [], absents, skips => .ok (absents, skips)
  | cf :: rest, absents, skips =>
    if skips.any (fun p => akHasPfx cf.aliasedKey p) then
      verifyLoop codecFTC gold rest absents skips
    else
      match findStructField gold cf.aliasedKey with
      | none => .error (.unknownField cf)
      | some gf =>
        let absents' := removeAbsentCandidate gf.aliasedKey absents
        match fieldTypesConsistent codecFTC cf gf with
        | .error _ => .error (.typeMismatch cf gf)
        | .ok noDeeper =>
          verifyLoop codecFTC gold rest absents'
            (if noDeeper then skips ++ [cf.aliasedKey] else skips)

/-- decoder.verifyFieldsConsistency: run the candidate loop starting
from all reference fields as absent candidates, then drop absent
candidates that fall under a recorded stop prefix. -/
def verifyFieldsConsistency (codecFTC : SField → SField → Except String Bool)
    (check gold : List SField) : Except VErr (List SField) :=
  match verifyLoop codecFTC gold check gold [] with
  | .error e => .error e
  | .ok (absents, skips) =>
    .ok (absents.filter fun a => !(skips.any fun p => akHasPfx a.aliasedKey p))

/-- Struct tag information for one field, as the reflection Codec and
the conf tag expose it: whether the codec ignores the field, the codec
alias (empty when none), and the raw conf tag value. -/
structure TagInfo where
  ignored : Bool := false
  aliasName : String := ""
  confTag : String := ""
  deriving Repr, DecidableEq

/-- Declaration-side data of one Go struct field: its name, whether it
is exported, and its struct tag. -/
structure GoField where
  name : String
  exported : Bool := true
  tag : TagInfo := {}
  deriving Repr, DecidableEq

/-- A dynamic Go value, covering the shapes the reconciliation engine
walks: nil interfaces, scalars, slices, string-keyed maps, typed nil
pointers, non-nil pointers, and structs.  A struct carries its type
name, whether a pointer to it implements encoding.TextUnmarshaler, and
its declared fields with their values. -/
inductive GoVal where
  | vnil
  | vbool (b : Bool)
  | vint (n : Int)
  | vstr (s : String)
  | vslice (tyName : String) (elems : List GoVal)
  | vmap (entries : List (String × GoVal))
  | vptrNil (elemTy : String)
  | vptr (inner : GoVal)
  | vstruct (tyName : String) (tu : Bool) (fields : List (GoField × GoVal))
  deriving Repr

/-- A generic nested map (Go map[string]interface\x7b\x7d), as an
association list; list order models Go's unspecified map order. -/
abbrev GoMap := List (String × GoVal)

/-- reflect Type().String() for the modelled values. -/
def GoVal.typeName : GoVal → String
  | .vnil => "interface \x7b\x7d"
  | .vbool _ => "bool"
  | .vint _ => "int"
  | .vstr _ => "string"
  | .vslice t _ => t
  | .vmap _ => "map[string]interface \x7b\x7d"
  | .vptrNil t => "*" ++ t
  | .vptr v => "*" ++ v.typeName
  | .vstruct t _ _ => t

/-- reflect Kind().String() for the modelled values. -/
def GoVal.kindName : GoVal → String
  | .vnil => "interface"
  | .vbool _ => "bool"
  | .vint _ => "int"
  | .vstr _ => "string"
  | .vslice _ _ => "slice"
  | .vmap _ => "map"
  | .vptrNil _ => "ptr"
  | .vptr _ => "ptr"
  | .vstruct _ _ _ => "struct"

/-- reflect.PtrTo(v.Type()).Implements(textUnmarshalerType) for the
modelled values: the flag carried by struct types. -/
def GoVal.implementsTU : GoVal → Bool
  | .vstruct _ tu _ => tu
  | _ => false

/-- Literal (case-sensitive) association-list lookup: Go map indexing. -/
def lookupLit : List (String × GoVal) → String → Option GoVal
  | [], _ => none
  | (k, v) :: rest, target => if k == target then some v else lookupLit rest target

/-- The pointer-unwrapping loop of decoder.makeField: reflect's Elem()
applied until the value is not a non-nil pointer.  Nil pointers and
nil interfaces are invalid after Elem() and fall through unchanged. -/
def unwrapPtrs : GoVal → GoVal
  | .vptr inner => unwrapPtrs inner
  | v => v

theorem unwrapPtrs_sizeOf (v : GoVal) : sizeOf (unwrapPtrs v) ≤ sizeOf v := by
  have H : ∀ (n : Nat) (w : GoVal), sizeOf w = n → sizeOf (unwrapPtrs w) ≤ sizeOf w := by
    intro n
    induction n using Nat.strong_induction_on with
    | _ n ih =>
      intro w hn
      cases w
      case vptr inner =>
        have h1 : unwrapPtrs (GoVal.vptr inner) = unwrapPtrs inner := rfl
        rw [h1]
        have hlt : sizeOf inner < sizeOf (GoVal.vptr inner) := by
          simp only [GoVal.vptr.sizeOf_spec]; omega
        subst hn
        exact le_trans (ih (sizeOf inner) hlt inner rfl) (le_of_lt hlt)
      all_goals exact Nat.le_refl _
  exact H (sizeOf v) v rfl

/-- decoder.makeField: build the StructField for one visible field,
returning none when the codec tag says the field is ignored, and
additionally the value to recurse into (for struct- and map-kind
values).  Go unwraps non-nil pointers by recursive calls that re-check
the (unchanging) ignored flag; that loop is unwrapPtrs here.  Nil
pointers and nil interfaces fall through and produce a descriptor from
the wrapper itself. -/
def makeFieldE (tag? : Option TagInfo) (keyPrefix : AKey) (name : String)
    (v0 : GoVal) : Option (SField × Option GoVal) :=
  if (tag?.map TagInfo.ignored).getD false then none
  else
    let v := unwrapPtrs v0
    let keyElem : AKElem :=
      match tag? with
      | some ti => if ti.aliasName ≠ "" then [name, ti.aliasName] else [name]
      | none => [name]
    let tagOpts : List String :=
      match tag? with
      | some ti => splitTag ti.confTag
      | none => []
    let expTag : String :=
      match tagOpts with
      | _ :: t :: _ => if t ≠ "" then t else ""
      | _ => ""
    let sf : SField :=
      { aliasedKey := keyPrefix ++ [keyElem]
        optional := tagOpts.headD "" == "optional"
        typ := v.typeName
        kind := v.kindName
        expectedType := if v.implementsTU then "string" else expTag }
    let rv : Option GoVal :=
      if v.kindName == "struct" || v.kindName == "map" then some v else none
    some (sf, rv)

theorem makeFieldE_rv (tag? : Option TagInfo) (kp : AKey) (nm : String)
    (v : GoVal) (sf : SField) (rv : GoVal)
    (h : makeFieldE tag? kp nm v = some (sf, some rv)) : rv = unwrapPtrs v := by
  rw [makeFieldE.eq_def] at h
  split at h
  · simp at h
  · simp only [Option.some.injEq, Prod.mk.injEq] at h
    obtain ⟨-, h2⟩ := h
    split at h2
    · injection h2 with h2
      exact h2.symm
    · simp at h2

theorem makeFieldE_sizeOf (tag? : Option TagInfo) (kp : AKey) (nm : String)
    (v : GoVal) (sf : SField) (rv : GoVal)
    (h : makeFieldE tag? kp nm v = some (sf, some rv)) : sizeOf rv ≤ sizeOf v := by
  rw [makeFieldE_rv tag? kp nm v sf rv h]
  exact unwrapPtrs_sizeOf v

theorem lookupLit_sizeOf : ∀ (entries : List (String × GoVal)) (k : String) (v : GoVal),
    lookupLit entries k = some v → sizeOf v < sizeOf entries := by
  intro entries
  induction entries with
  | nil => intro k v h; simp [lookupLit] at h
  | cons p rest ih =>
    intro k v h
    rw [lookupLit] at h
    split at h
    · cases h; cases p; simp; omega
    · have := ih k v h
      simp
      omega

mutual
/-- reflection.getStructFieldsRecursive: walk a value depth-first.
Non-nil pointers are unwrapped; a nil pointer or nil interface at this
level yields no fields; structs walk their declared fields in order
(skipping unexported ones); maps walk their keys in sorted order
(sort.Slice by string order over the distinct Go map keys, modelled by
insertion sort).  Each visible field's descriptor is emitted
immediately before the fields of its subtree. -/
def gsfr : GoVal → AKey → List SField
  | .vptr inner, currKey => gsfr inner currKey
  | .vstruct _ _ fields, currKey => gsfrStructFields fields currKey
  | .vmap entries, currKey =>
    gsfrMapKeys entries ((entries.map Prod.fst).insertionSort (fun a b => strLE a b = true)) currKey
  | _, _ => []
termination_by v _ => (sizeOf v, 0)
decreasing_by
  all_goals (apply Prod.Lex.left; simp; all_goals omega)

/-- The struct branch of getStructFieldsRecursive: walk declared
fields in declaration order. -/
def gsfrStructFields : List (GoField × GoVal) → AKey → List SField
  | [], _ => []
  | (info, val) :: rest, currKey =>
    if !info.exported then gsfrStructFields rest currKey
    else
      match h : makeFieldE (some info.tag) currKey info.name val with
      | none => gsfrStructFields rest currKey
      | some (sf, none) => sf :: gsfrStructFields rest currKey
      | some (sf, some rv) =>
        sf :: (gsfr rv sf.aliasedKey ++ gsfrStructFields rest currKey)
termination_by l _ => (sizeOf l, 0)
decreasing_by
  all_goals apply Prod.Lex.left
  all_goals try (have hs := makeFieldE_sizeOf _ _ _ _ _ _ h; simp; all_goals omega; done)
  all_goals (simp; all_goals omega)

/-- The map branch of getStructFieldsRecursive: visit the sorted keys,
reading each value back out of the map. -/
def gsfrMapKeys (entries : List (String × GoVal)) : List String → AKey → List SField
  | [], _ => []
  | k :: ks, currKey =>
    match hl : lookupLit entries k with
    | none => gsfrMapKeys entries ks currKey
    | some val =>
      match h : makeFieldE none currKey k val with
      | none => gsfrMapKeys entries ks currKey
      | some (sf, none) => sf :: gsfrMapKeys entries ks currKey
      | some (sf, some rv) =>
        sf :: (gsfr rv sf.aliasedKey ++ gsfrMapKeys entries ks currKey)
termination_by ks _ => (sizeOf entries, ks.length + 1)
decreasing_by
  all_goals first
  | (apply Prod.Lex.right; simp only [List.length_cons]; omega)
  | (apply Prod.Lex.left
     have hs := makeFieldE_sizeOf _ _ _ _ _ _ h
     have hl2 := lookupLit_sizeOf _ _ _ hl
     omega)
end

/-- reflection.GetStructFields: entry point of the schema extractor. -/
def GetStructFields (obj : GoVal) : List SField :=
  gsfr obj []

/-- Go map assignment m[k] = v on the association-list model: replace
the value at the literal key in place, else add the key. -/
def updateAssoc : GoMap → String → GoVal → GoMap
  | [], k, v => [(k, v)]
  | (k0, v0) :: rest, k, v =>
    if k0 == k then (k0, v) :: rest
    else (k0, v0) :: updateAssoc rest k v

/-- The prefix-resolution loop at the top of setMapByKey: try to find
a struct field matching ever-shorter prefixes of the key; on a match,
splice that field's AliasedKey onto the unmatched tail. -/
def resolveWriteKeyLoop (sfs : List SField) (k : PKey) : Nat → AKey
  | 0 => aliasedKeyFromKey k
  | n + 1 =>
    match findStructField sfs (aliasedKeyFromKey (k.take (n + 1))) with
    | some sf => sf.aliasedKey ++ (aliasedKeyFromKey k).drop sf.aliasedKey.length
    | none => resolveWriteKeyLoop sfs k n

/-- The aliased key setMapByKey actually descends with. -/
def resolveWriteKey (sfs : List SField) (k : PKey) : AKey :=
  resolveWriteKeyLoop sfs k k.length

/-- The descent loop of setMapByKey.  At each level the written key is
an existing map key matching the component (Go picks an arbitrary
matching key from its unordered map; the model picks the first in
list order), else the component's last (alias-preferring) spelling.
Intermediate nil or missing entries become fresh maps; an intermediate
non-map, non-nil value is the structure-conflict error (in which case
the Go code has not yet mutated the map, so the map is returned
unchanged).  The Bool result is true when the error occurred. -/
def setMapGo : GoMap → AKey → GoVal → GoMap × Bool
  | m, [], _ => (m, false)
  | m, e :: rest, v =>
    let keyElem : String :=
      match m.find? (fun p => elemEqual e [p.1]) with
      | some p => p.1
      | none => e.getLastD ""
    if rest.isEmpty then (updateAssoc m keyElem v, false)
    else
      match lookupLit m keyElem with
      | none =>
        let r := setMapGo [] rest v
        (updateAssoc m keyElem (.vmap r.1), r.2)
      | some .vnil =>
        let r := setMapGo [] rest v
        (updateAssoc m keyElem (.vmap r.1), r.2)
      | some (.vmap sub) =>
        let r := setMapGo sub rest v
        if r.2 then (m, true) else (updateAssoc m keyElem (.vmap r.1), false)
      | some _ => (m, true)

/-- configloader.setMapByKey: resolve the key against the struct
fields, then descend and write.  The Bool is true when the write
failed with the structure-conflict error. -/
def setMapByKey (m : GoMap) (k : PKey) (v : GoVal) (sfs : List SField) : GoMap × Bool :=
  setMapGo m (resolveWriteKey sfs k) v

/-- The value-extraction walk inside decoder.mergeMaps: follow the
first spelling of each component down the source map.  (For fields
enumerated from the source map itself the walk always succeeds; Go
would panic otherwise.) -/
def walkMap : GoMap → List String → Option GoVal
  | _, [] => none
  | m, [k] => lookupLit m k
  | m, k :: rest =>
    match lookupLit m k with
    | some (.vmap sub) => walkMap sub rest
    | _ => none

/-- The field loop of decoder.mergeMaps.  A map-kind source field is
skipped when the immediately following field is its child (non-empty
branch) or when the original destination already has a field at its
key; every other field is copied as a leaf via setMapByKey, whose
error the Go code discards — the third component of the result records
whether any discarded error occurred, and the key is appended to
keysMerged regardless.

mergeSkip is the skip condition of that loop: a map-kind source field
is skipped when the immediately following field is its child (it is a
non-empty branch) or when the original destination already has a field
at its key (an empty branch must not clobber it). -/
def mergeSkip (dstFields : List SField) (f : SField) (rest : List SField) : Bool :=
  f.kind == "map" &&
    ((match rest with
      | nf :: _ => akHasPfx nf.aliasedKey f.aliasedKey
      | [] => false) ||
     (findStructField dstFields f.aliasedKey).isSome)

/-- The field loop of decoder.mergeMaps (see mergeSkip above). -/
def mergeLoop (sfs dstFields : List SField) (src : GoMap) :
    List SField → GoMap → GoMap × List PKey × Bool
  | [], dst => (dst, [], false)
  | f :: rest, dst =>
    if mergeSkip dstFields f rest then
      mergeLoop sfs dstFields src rest dst
    else
      let key : PKey := f.aliasedKey.map fun e => e.headD ""
      let val := (walkMap src key).getD .vnil
      let w := setMapByKey dst key val sfs
      let r := mergeLoop sfs dstFields src rest w.1
      (r.1, key :: r.2.1, w.2 || r.2.2)

/-- decoder.mergeMaps: extract the schemas of src and of the original
dst, then run the copy loop.  Returns the updated dst, the keys of the
leaves merged, and (instrumentation) whether any setMapByKey error was
discarded. -/
def mergeMaps (dst src : GoMap) (sfs : List SField) : GoMap × List PKey × Bool :=
  mergeLoop sfs (GetStructFields (.vmap dst)) src (GetStructFields (.vmap src)) dst

/-- configloader.Provenance. -/
structure Prov where
  aliasedKey : AKey
  key : PKey
  src : String
  deriving Repr, DecidableEq

/-- The update-or-append loop of Metadata.setProvenance. -/
def setProvLoop : List Prov → AKey → String → List Prov
  | [], ak, src => [{ aliasedKey := ak, key := keyFromAliasedKey ak, src := src }]
  | p :: rest, ak, src =>
    if akEqual ak p.aliasedKey then { p with src := src } :: rest
    else p :: setProvLoop rest ak src

/-- Metadata.setProvenance: resolve the key against the struct fields
when possible, then overwrite the provenance entry for that key
identity in place, or append a new entry. -/
def setProvenance (sfs : List SField) (provs : List Prov) (k : PKey) (src : String) :
    List Prov :=
  let ak :=
    match findStructField sfs (aliasedKeyFromKey k) with
    | some sf => sf.aliasedKey
    | none => aliasedKeyFromKey k
  setProvLoop provs ak src

/-- The accumulated state of one Load invocation's document phase:
the accumulator map and the provenance list. -/
structure LoadState where
  accum : GoMap
  provs : List Prov
  deriving Repr

/-- One iteration of Load's reader loop, for a document already
decoded into a generic map (the codec Unmarshal is the out-of-scope
collaborator): merge into the accumulator and record the document's
label as provenance for every key mergeMaps reports. -/
def processDoc (sfs : List SField) (st : LoadState) (doc : String × GoMap) : LoadState :=
  let r := mergeMaps st.accum doc.2 sfs
  { accum := r.1
    provs := r.2.1.foldl (fun ps k => setProvenance sfs ps k doc.1) st.provs }

/-- Load's reader loop over the (label, decoded document) pairs. -/
def processDocs (sfs : List SField) (docs : List (String × GoMap)) (st : LoadState) :
    LoadState :=
  docs.foldl (processDoc sfs) st

/-- Load's defaults loop, in the map-destination path (no key
resolution against struct fields happens there): write each default
into the scratch defaults map, failing the Load call as soon as a
setMapByKey error occurs, and record "[default]" provenance. -/
def processDefaults (sfs : List SField) :
    List (PKey × GoVal) → GoMap → List Prov → Except String (GoMap × List Prov)
  | [], m, provs => .ok (m, provs)
  | (k, v) :: rest, m, provs =>
    let w := setMapByKey m k v sfs
    if w.2 then .error "setMapByKey failed for default"
    else processDefaults sfs rest w.1 (setProvenance sfs provs k "[default]")

/-- The propagation step of Load's finalize loop at one absent field f
(fields are identified by index, children is the extraction's
parent-child relation, opt holds each field's current Optional flag):
when f is optional and has children, all its children become
optional. -/
def propagateOptional (children : Nat → List Nat) (opt : Nat → Bool) (f : Nat) :
    Nat → Bool :=
  if opt f && !(children f).isEmpty then
    fun j => opt j || decide (j ∈ children f)
  else opt

/-- Load's finalize loop over the ordered absent-field list: propagate
optionality from absent optional branches to their children, and
collect every field that is (still) not optional when it is
processed. -/
def finalizeMissing (children : Nat → List Nat) : List Nat → (Nat → Bool) → List Nat
  | [], _ => []
  | f :: rest, opt =>
    let opt2 := propagateOptional children opt f
    (if opt2 f then [] else [f]) ++ finalizeMissing children rest opt2

/-- The end of Load's finalize phase: fail with the full list of
missing required fields iff that list is nonempty. -/
def finalizeAbsent (children : Nat → List Nat) (absents : List Nat) (opt : Nat → Bool) :
    Except (List Nat) Unit :=
  let missing := finalizeMissing children absents opt
  if missing.isEmpty then .ok () else .error missing

/-- C9 counterexample: the claim says a nil pointer field contributes
no field descriptor, but for the struct main.S with a single nil
*string field F the extracted schema contains exactly one descriptor,
for F, with pointer kind and type. -/
theorem c9_counterexample :
    GetStructFields (.vstruct "main.S" false [({ name := "F" }, .vptrNil "string")]) =
      [{ aliasedKey := [["F"]], optional := false, typ := "*string", kind := "ptr",
         expectedType := "" }] := by
  simp [GetStructFields, gsfr, gsfrStructFields, makeFieldE, unwrapPtrs,
    GoVal.kindName, GoVal.typeName, GoVal.implementsTU, splitTag]

/-- C9 amended: pointer unwrapping is transparent for non-nil
pointers (both at the root of the walk and at a field); a nil pointer
at the root of the walk yields an empty schema; but a nil pointer
field yields exactly one descriptor, of pointer kind and type, with no
recursion below it. -/
theorem c9_amended_nil_pointer (tag? : Option TagInfo) (kp : AKey) (nm : String)
    (t : String) (v : GoVal) (currKey : AKey)
    (hnotIgnored : (tag?.map TagInfo.ignored).getD false = false) :
    gsfr (.vptrNil t) currKey = [] ∧
    gsfr (.vptr v) currKey = gsfr v currKey ∧
    makeFieldE tag? kp nm (.vptr v) = makeFieldE tag? kp nm v ∧
    ∃ sf, makeFieldE tag? kp nm (.vptrNil t) = some (sf, none) ∧
      sf.kind = "ptr" ∧ sf.typ = "*" ++ t := by
  refine ⟨by simp [gsfr], by simp [gsfr], ?_, ?_⟩
  · rw [makeFieldE.eq_def, makeFieldE.eq_def]
    rw [show unwrapPtrs (.vptr v) = unwrapPtrs v from rfl]
  · rw [makeFieldE.eq_def]
    rw [if_neg (by simp [hnotIgnored])]
    rw [show unwrapPtrs (.vptrNil t) = .vptrNil t from rfl]
    exact ⟨_, rfl, rfl, rfl⟩

/-- C9 witness: instantiation of the amended theorem at a concrete
untagged field holding a nil *string. -/
theorem c9_witness :
    gsfr (.vptrNil "string") [] = [] ∧
    gsfr (.vptr (.vint 3)) [] = gsfr (.vint 3) [] ∧
    makeFieldE none [] "F" (.vptr (.vint 3)) = makeFieldE none [] "F" (.vint 3) ∧
    ∃ sf, makeFieldE none [] "F" (.vptrNil "string") = some (sf, none) ∧
      sf.kind = "ptr" ∧ sf.typ = "*" ++ "string" :=
  c9_amended_nil_pointer none [] "F" "string" (.vint 3) [] rfl

/-- C8 counterexample: the claim says a field whose type implements
encoding.TextUnmarshaler is not recursed into, so that no descriptors
exist for its internal sub-fields even when it is a struct with
exported fields; but for main.S with field T of TextUnmarshaler struct
type mypkg.TU carrying exported field X, the extracted schema contains
a descriptor for the sub-field T.X (the T descriptor does get
expectedType "string"). -/
theorem c8_counterexample :
    GetStructFields (.vstruct "main.S" false
        [({ name := "T" }, .vstruct "mypkg.TU" true [({ name := "X" }, .vint 0)])]) =
      [{ aliasedKey := [["T"]], optional := false, typ := "mypkg.TU", kind := "struct",
         expectedType := "string" },
       { aliasedKey := [["T"], ["X"]], optional := false, typ := "int", kind := "int",
         expectedType := "" }] := by
  simp [GetStructFields, gsfr, gsfrStructFields, makeFieldE, unwrapPtrs,
    GoVal.kindName, GoVal.typeName, GoVal.implementsTU, splitTag]

/-- C8 amended: for a field whose (struct) type implements
encoding.TextUnmarshaler, the extractor forces expectedType to
"string", but it still asks to recurse into the value (struct kind),
so exported sub-fields do produce descriptors; the consistency
verifier is what later stops comparisons below such a field, via its
stop-prefix mechanism. -/
theorem c8_amended_tu (tag? : Option TagInfo) (kp : AKey) (nm : String)
    (t : String) (flds : List (GoField × GoVal))
    (hnotIgnored : (tag?.map TagInfo.ignored).getD false = false) :
    ∃ sf, makeFieldE tag? kp nm (.vstruct t true flds) =
        some (sf, some (.vstruct t true flds)) ∧
      sf.expectedType = "string" ∧ sf.kind = "struct" := by
  rw [makeFieldE.eq_def]
  rw [if_neg (by simp [hnotIgnored])]
  rw [show unwrapPtrs (.vstruct t true flds) = .vstruct t true flds from rfl]
  exact ⟨_, rfl, rfl, rfl⟩

/-- C8 witness: instantiation of the amended theorem at a concrete
untagged TextUnmarshaler struct field. -/
theorem c8_witness :
    ∃ sf, makeFieldE none [] "T" (.vstruct "mypkg.TU" true [({ name := "X" }, .vint 0)]) =
        some (sf, some (.vstruct "mypkg.TU" true [({ name := "X" }, .vint 0)])) ∧
      sf.expectedType = "string" ∧ sf.kind = "struct" :=
  c8_amended_tu none [] "T" "mypkg.TU" [({ name := "X" }, .vint 0)] rfl

/-- C6 counterexample: merging document D2 (x is a branch) after D1
(x = 1, a scalar) requires descending through destination key x, which
holds the non-map, non-nil scalar 1 — setMapByKey reports the
structure-conflict error — yet the Load document phase (map
destination) completes with no failure: mergeMaps discards the error,
the conflicting write is dropped, and the accumulator still holds
x = 1. -/
theorem c6_counterexample :
    (mergeMaps [("x", GoVal.vint 1)] [("x", GoVal.vmap [("y", GoVal.vint 2)])] []).2.2 = true ∧
    (processDocs []
        [("D1", [("x", GoVal.vint 1)]), ("D2", [("x", GoVal.vmap [("y", GoVal.vint 2)])])]
        ⟨[], []⟩).accum = [("x", GoVal.vint 1)] := by
  constructor
  · simp [mergeMaps, mergeLoop, mergeSkip, GetStructFields, gsfr, gsfrMapKeys, makeFieldE, unwrapPtrs,
      lookupLit, GoVal.kindName, GoVal.typeName, GoVal.implementsTU, List.insertionSort,
      List.orderedInsert, setMapByKey, setMapGo, resolveWriteKey, resolveWriteKeyLoop,
      findStructField, aliasedKeyFromKey, walkMap, akHasPfx, akEqual, elemEqual, eqFold,
      updateAssoc, splitTag, strLE, charListLE]
  · simp [processDocs, processDoc, mergeMaps, mergeLoop, mergeSkip, GetStructFields, gsfr, gsfrMapKeys,
      makeFieldE, unwrapPtrs, lookupLit, GoVal.kindName, GoVal.typeName, GoVal.implementsTU,
      List.insertionSort, List.orderedInsert, setMapByKey, setMapGo, resolveWriteKey,
      resolveWriteKeyLoop, findStructField, aliasedKeyFromKey, keyFromAliasedKey, walkMap,
      akHasPfx, akEqual, elemEqual, eqFold, updateAssoc, splitTag, strLE, charListLE,
      setProvenance, setProvLoop]

/-- C6 amended: the structure-conflict error is fatal on the paths
where Load calls setMapByKey directly — writing defaults (and,
identically, environment overrides): if the defaults processed so far
succeeded and the next default's write hits the conflict, the Load
call fails.  (During document merges the same error is discarded by
mergeMaps and Load does not fail; see the counterexample and C10.) -/
theorem c6_amended_conflict_error_paths (sfs : List SField)
    (l1 : List (PKey × GoVal)) (l2 : List (PKey × GoVal)) (k : PKey) (v : GoVal)
    (m m1 : GoMap) (provs provs1 : List Prov)
    (h1 : processDefaults sfs l1 m provs = .ok (m1, provs1))
    (h2 : (setMapByKey m1 k v sfs).2 = true) :
    processDefaults sfs (l1 ++ (k, v) :: l2) m provs =
      .error "setMapByKey failed for default" := by
  induction l1 generalizing m provs with
  | nil =>
    simp only [processDefaults, Except.ok.injEq, Prod.mk.injEq] at h1
    obtain ⟨hm, hp⟩ := h1
    subst hm; subst hp
    simp only [List.nil_append, processDefaults]
    rw [if_pos h2]
  | cons d rest ih =>
    obtain ⟨dk, dv⟩ := d
    simp only [List.cons_append, processDefaults] at h1 ⊢
    split at h1
    · exact absurd h1 (by simp)
    · next hc =>
      rw [if_neg hc]
      exact ih _ _ h1

/-- C6 witness: a concrete default whose key descends through a
scalar already in the scratch map fails the defaults phase. -/
theorem c6_witness :
    processDefaults [] [] [("x", GoVal.vint 1)] [] = .ok ([("x", GoVal.vint 1)], []) ∧
    (setMapByKey [("x", GoVal.vint 1)] ["x", "y"] (.vint 2) []).2 = true ∧
    processDefaults [] ([] ++ (["x", "y"], GoVal.vint 2) :: []) [("x", GoVal.vint 1)] [] =
      .error "setMapByKey failed for default" :=
  ⟨rfl, rfl, c6_amended_conflict_error_paths [] [] [] ["x", "y"] (.vint 2)
    [("x", GoVal.vint 1)] [("x", GoVal.vint 1)] [] [] rfl rfl⟩

/-- The sublist of source fields the merge loop decides to copy: the
same walk as mergeLoop but recording decisions only.  It depends on
the source schema and the original destination schema, never on the
outcomes of the writes. -/
def mergeCopyList (dstFields : List SField) : List SField → List SField
  | [] => []
  | f :: rest =>
    if mergeSkip dstFields f rest then mergeCopyList dstFields rest
    else f :: mergeCopyList dstFields rest

theorem mergeLoop_keys (sfs dstFields : List SField) (src : GoMap) :
    ∀ (fields : List SField) (dst : GoMap),
      (mergeLoop sfs dstFields src fields dst).2.1 =
        (mergeCopyList dstFields fields).map
          (fun f => f.aliasedKey.map (fun e => e.headD "")) := by
  intro fields
  induction fields with
  | nil => intro dst; simp [mergeLoop, mergeCopyList]
  | cons f rest ih =>
    intro dst
    simp only [mergeLoop, mergeCopyList]
    split
    · exact ih dst
    · simp only [List.map_cons, List.cons.injEq]
      refine ⟨?_, ?_⟩ <;> first | exact ih _ | rfl | trivial

theorem mergeCopyList_mem (dstFields : List SField) :
    ∀ (fields : List SField) (f : SField),
      f ∈ mergeCopyList dstFields fields ↔
        ∃ l1 l2, fields = l1 ++ f :: l2 ∧ mergeSkip dstFields f l2 = false := by
  intro fields
  induction fields with
  | nil =>
    intro f
    simp [mergeCopyList]
  | cons g rest ih =>
    intro f
    rw [mergeCopyList]
    constructor
    · intro hmem
      split at hmem
      · obtain ⟨l1, l2, hsplit, hskip⟩ := (ih f).mp hmem
        exact ⟨g :: l1, l2, by rw [hsplit, List.cons_append], hskip⟩
      · next hcond =>
        rcases List.mem_cons.mp hmem with heq | hmem2
        · subst heq
          refine ⟨[], rest, rfl, ?_⟩
          simpa using hcond
        · obtain ⟨l1, l2, hsplit, hskip⟩ := (ih f).mp hmem2
          exact ⟨g :: l1, l2, by rw [hsplit, List.cons_append], hskip⟩
    · rintro ⟨l1, l2, hsplit, hskip⟩
      cases l1 with
      | nil =>
        simp only [List.nil_append, List.cons.injEq] at hsplit
        obtain ⟨hg, hrest⟩ := hsplit
        subst hg; subst hrest
        rw [if_neg (by simp [hskip])]
        exact List.mem_cons_self _ _
      | cons g2 l1t =>
        simp only [List.cons_append, List.cons.injEq] at hsplit
        obtain ⟨hg, hrest⟩ := hsplit
        subst hg
        have hmem2 : f ∈ mergeCopyList dstFields rest :=
          (ih f).mpr ⟨l1t, l2, hrest, hskip⟩
        split
        · exact hmem2
        · exact List.mem_cons_of_mem _ hmem2

/-- C10: the keys mergeMaps reports as merged are exactly the keys of
the fields the copy decision selects — a function of the source schema
and the original destination schema only, never of whether the
underlying setMapByKey write succeeded (its error is discarded
by mergeMaps, as the instrumentation bit records); concretely, when
document D2's write of x.y fails against the scalar x in the
accumulator, the key x.y is still reported merged, Load still records
provenance "D2" for x.y, and the accumulator holds no value at x.y. -/
theorem c10_keys_merged_ignore_write_errors :
    (∀ (sfs dstFields : List SField) (src : GoMap) (fields : List SField) (dst : GoMap),
      (mergeLoop sfs dstFields src fields dst).2.1 =
        (mergeCopyList dstFields fields).map
          (fun f => f.aliasedKey.map (fun e => e.headD ""))) ∧
    (mergeMaps [("x", GoVal.vint 1)] [("x", GoVal.vmap [("y", GoVal.vint 2)])] []).2.2 = true ∧
    (mergeMaps [("x", GoVal.vint 1)] [("x", GoVal.vmap [("y", GoVal.vint 2)])] []).2.1 =
      [["x", "y"]] ∧
    (processDocs []
        [("D1", [("x", GoVal.vint 1)]), ("D2", [("x", GoVal.vmap [("y", GoVal.vint 2)])])]
        ⟨[], []⟩).provs =
      [{ aliasedKey := [["x"]], key := ["x"], src := "D1" },
       { aliasedKey := [["x"], ["y"]], key := ["x", "y"], src := "D2" }] ∧
    walkMap (processDocs []
        [("D1", [("x", GoVal.vint 1)]), ("D2", [("x", GoVal.vmap [("y", GoVal.vint 2)])])]
        ⟨[], []⟩).accum ["x", "y"] = none := by
  refine ⟨fun sfs dstFields src fields dst => mergeLoop_keys sfs dstFields src fields dst,
    ?_, ?_, ?_, ?_⟩ <;>
  simp [processDocs, processDoc, mergeMaps, mergeLoop, mergeSkip, GetStructFields, gsfr,
    gsfrMapKeys, makeFieldE, unwrapPtrs, lookupLit, GoVal.kindName, GoVal.typeName,
    GoVal.implementsTU, List.insertionSort, List.orderedInsert, setMapByKey, setMapGo,
    resolveWriteKey, resolveWriteKeyLoop, findStructField, aliasedKeyFromKey,
    keyFromAliasedKey, walkMap, akHasPfx, akEqual, elemEqual, eqFold, updateAssoc, splitTag,
    strLE, charListLE, setProvenance, setProvLoop]

/-- C7: a key is reported merged by mergeMaps exactly when its source
field is reached with the copy decision true: every non-map-kind field
is copied; a map-kind field is copied only when it is an empty branch
(the immediately following field in the source schema does not have it
as prefix) AND the original destination has no field at its key.  In
particular a non-empty branch is never copied directly — only its leaf
descendants are. -/
theorem c7_merge_leaf_selection (sfs : List SField) (dst src : GoMap) (k : PKey) :
    k ∈ (mergeMaps dst src sfs).2.1 ↔
      ∃ f l1 l2, GetStructFields (.vmap src) = l1 ++ f :: l2 ∧
        k = f.aliasedKey.map (fun e => e.headD "") ∧
        ¬(f.kind = "map" ∧
          ((∃ nf l3, l2 = nf :: l3 ∧ akHasPfx nf.aliasedKey f.aliasedKey = true) ∨
           (findStructField (GetStructFields (.vmap dst)) f.aliasedKey).isSome = true)) := by
  rw [mergeMaps]
  rw [mergeLoop_keys]
  rw [List.mem_map]
  constructor
  · rintro ⟨f, hmem, hk⟩
    obtain ⟨l1, l2, hsplit, hskip⟩ := (mergeCopyList_mem _ _ f).mp hmem
    refine ⟨f, l1, l2, hsplit, hk.symm, ?_⟩
    rw [mergeSkip.eq_def] at hskip
    rintro ⟨hkind, hrest⟩
    rcases hrest with ⟨nf, l3, hl2, hpfx⟩ | hfind
    · subst hl2
      simp [hkind, hpfx] at hskip
    · simp only [Bool.and_eq_false_iff, beq_iff_eq] at hskip
      rcases hskip with h1 | h2
      · exact absurd hkind (by simpa using h1)
      · simp only [Bool.or_eq_false_iff] at h2
        rw [h2.2] at hfind
        simp at hfind
  · rintro ⟨f, l1, l2, hsplit, hk, hcond⟩
    refine ⟨f, ?_, hk.symm⟩
    refine (mergeCopyList_mem _ _ f).mpr ⟨l1, l2, hsplit, ?_⟩
    rw [mergeSkip.eq_def]
    by_contra hne
    rw [Bool.not_eq_false, Bool.and_eq_true] at hne
    obtain ⟨hkind, hor⟩ := hne
    rw [Bool.or_eq_true] at hor
    apply hcond
    refine ⟨by simpa using hkind, ?_⟩
    rcases hor with hml | hfind
    · left
      cases l2 with
      | nil => simp at hml
      | cons nf l3 => exact ⟨nf, l3, rfl, hml⟩
    · right
      exact hfind

/-- A well-formed Go value: field names are distinct within a struct
and keys are distinct within a map (Go guarantees both), recursively.
Slices are not walked by the extractor, so their elements are not
constrained. -/
def wfGoVal : GoVal → Prop
  | .vnil => True
  | .vbool _ => True
  | .vint _ => True
  | .vstr _ => True
  | .vslice _ _ => True
  | .vptrNil _ => True
  | .vptr inner => wfGoVal inner
  | .vstruct _ _ flds =>
    (flds.map fun p => p.1.name).Nodup ∧ ∀ info v, (info, v) ∈ flds → wfGoVal v
  | .vmap entries =>
    (entries.map Prod.fst).Nodup ∧ ∀ k v, (k, v) ∈ entries → wfGoVal v
termination_by v => sizeOf v
decreasing_by
  all_goals simp_wf
  all_goals first
  | omega
  | (rename_i hmem
     have hlt := List.sizeOf_lt_of_mem hmem
     simp at hlt ⊢
     omega)

theorem wf_unwrapPtrs (v : GoVal) (hwf : wfGoVal v) : wfGoVal (unwrapPtrs v) := by
  have H : ∀ (n : Nat) (w : GoVal), sizeOf w = n → wfGoVal w → wfGoVal (unwrapPtrs w) := by
    intro n
    induction n using Nat.strong_induction_on with
    | _ n ih =>
      intro w hn hwf
      cases w
      case vptr inner =>
        rw [show unwrapPtrs (GoVal.vptr inner) = unwrapPtrs inner from rfl]
        have hlt : sizeOf inner < sizeOf (GoVal.vptr inner) := by
          simp only [GoVal.vptr.sizeOf_spec]; omega
        rw [wfGoVal] at hwf
        subst hn
        exact ih (sizeOf inner) hlt inner rfl hwf
      all_goals exact hwf
  exact H (sizeOf v) v rfl hwf

/-- Literal (componentwise list equality) proper prefix between
aliased keys: the tree-ancestor relation on extracted descriptors. -/
def properLitPfx (p k : AKey) : Prop :=
  p.length < k.length ∧ k.take p.length = p

/-- Branch-before-leaf as a list property: no element has a literal
ancestor occurring after it. -/
def NoLaterAncestor (l : List SField) : Prop :=
  ∀ l1 f l2, l = l1 ++ f :: l2 → ∀ g ∈ l2, ¬ properLitPfx g.aliasedKey f.aliasedKey

theorem nla_nil : NoLaterAncestor [] := by
  intro l1 f l2 h
  exact absurd h (by simp)

theorem nla_tail {x : SField} {A : List SField} (h : NoLaterAncestor (x :: A)) :
    NoLaterAncestor A := by
  intro l1 f l2 hsplit g hg
  exact h (x :: l1) f l2 (by rw [hsplit, List.cons_append]) g hg

theorem nla_append {A B : List SField} (hA : NoLaterAncestor A) (hB : NoLaterAncestor B)
    (hcross : ∀ f ∈ A, ∀ g ∈ B, ¬ properLitPfx g.aliasedKey f.aliasedKey) :
    NoLaterAncestor (A ++ B) := by
  induction A with
  | nil => simpa using hB
  | cons a A2 ih =>
    intro l1 f l2 hsplit g hg
    cases l1 with
    | nil =>
      simp only [List.nil_append, List.cons_append, List.cons.injEq] at hsplit
      obtain ⟨h1, h2⟩ := hsplit
      rw [← h2] at hg
      rw [← h1]
      rcases List.mem_append.mp hg with hgA | hgB
      · exact hA [] a A2 rfl g hgA
      · exact hcross a (List.mem_cons_self _ _) g hgB
    | cons x l1t =>
      simp only [List.cons_append, List.cons.injEq] at hsplit
      obtain ⟨h1, h2⟩ := hsplit
      exact ih (nla_tail hA) (fun f2 hf2 g2 hg2 => hcross f2 (List.mem_cons_of_mem _ hf2) g2 hg2)
        l1t f l2 h2 g hg

theorem nla_cons {sf : SField} {tail : List SField} (hT : NoLaterAncestor tail)
    (hlen : ∀ g ∈ tail, sf.aliasedKey.length ≤ g.aliasedKey.length) :
    NoLaterAncestor (sf :: tail) := by
  intro l1 f l2 hsplit g hg
  cases l1 with
  | nil =>
    simp only [List.nil_append, List.cons.injEq] at hsplit
    obtain ⟨h1, h2⟩ := hsplit
    subst h1
    rw [← h2] at hg
    rintro ⟨hlt, -⟩
    exact absurd hlt (by have := hlen g hg; omega)
  | cons x l1t =>
    simp only [List.cons_append, List.cons.injEq] at hsplit
    exact hT l1t f l2 hsplit.2 g hg

theorem properLitPfx_same_head {key : AKey} {e1 e2 : AKElem} {t1 t2 : List AKElem}
    (h : properLitPfx (key ++ e1 :: t1) (key ++ e2 :: t2)) : e1 = e2 := by
  obtain ⟨-, htake⟩ := h
  rw [List.take_append_eq_append_take] at htake
  have hlen : key.length ≤ (key ++ e1 :: t1).length := by simp
  rw [List.take_of_length_le hlen] at htake
  have h2 := List.append_cancel_left htake
  simp only [List.length_append, List.length_cons, Nat.add_sub_cancel_left] at h2
  rw [List.take_cons] at h2
  · exact ((List.cons.injEq _ _ _ _ ▸ h2).1).symm
  · omega

theorem charListLE_total : ∀ a b : List Char, charListLE a b = true ∨ charListLE b a = true := by
  intro a
  induction a with
  | nil => intro b; left; rw [charListLE]
  | cons c1 r1 ih =>
    intro b
    cases b with
    | nil => right; rw [charListLE]
    | cons c2 r2 =>
      rcases lt_trichotomy c1 c2 with h | h | h
      · left; rw [charListLE, if_pos h]
      · subst h
        rcases ih r2 with h2 | h2
        · left; rw [charListLE, if_neg (lt_irrefl c1), if_neg (lt_irrefl c1)]; exact h2
        · right; rw [charListLE, if_neg (lt_irrefl c1), if_neg (lt_irrefl c1)]; exact h2
      · right; rw [charListLE, if_pos h]

theorem charListLE_trans : ∀ a b c : List Char,
    charListLE a b = true → charListLE b c = true → charListLE a c = true := by
  intro a
  induction a with
  | nil => intro b c _ _; rw [charListLE]
  | cons c1 r1 ih =>
    intro b c h1 h2
    cases b with
    | nil => rw [charListLE] at h1; exact absurd h1 (by simp)
    | cons c2 r2 =>
      cases c with
      | nil => rw [charListLE] at h2; exact absurd h2 (by simp)
      | cons c3 r3 =>
        rw [charListLE] at h1 h2 ⊢
        by_cases h12 : c1 < c2
        · by_cases h23 : c2 < c3
          · rw [if_pos (lt_trans h12 h23)]
          · by_cases h32 : c3 < c2
            · rw [if_neg h23, if_pos h32] at h2
              exact absurd h2 (by simp)
            · have : c2 = c3 := le_antisymm (not_lt.mp h32) (not_lt.mp h23)
              subst this
              rw [if_pos h12]
        · by_cases h21 : c2 < c1
          · rw [if_neg h12, if_pos h21] at h1
            exact absurd h1 (by simp)
          · have : c1 = c2 := le_antisymm (not_lt.mp h21) (not_lt.mp h12)
            subst this
            rw [if_neg (lt_irrefl c1), if_neg (lt_irrefl c1)] at h1
            by_cases h23 : c1 < c3
            · rw [if_pos h23]
            · by_cases h32 : c3 < c1
              · rw [if_neg h23, if_pos h32] at h2
                exact absurd h2 (by simp)
              · have : c1 = c3 := le_antisymm (not_lt.mp h32) (not_lt.mp h23)
                subst this
                rw [if_neg (lt_irrefl c1), if_neg (lt_irrefl c1)] at h2 ⊢
                exact ih r2 r3 h1 h2

theorem charListLE_antisymm : ∀ a b : List Char,
    charListLE a b = true → charListLE b a = true → a = b := by
  intro a
  induction a with
  | nil =>
    intro b _ h2
    cases b with
    | nil => rfl
    | cons c2 r2 => rw [charListLE] at h2; exact absurd h2 (by simp)
  | cons c1 r1 ih =>
    intro b h1 h2
    cases b with
    | nil => rw [charListLE] at h1; exact absurd h1 (by simp)
    | cons c2 r2 =>
      rw [charListLE] at h1 h2
      by_cases h12 : c1 < c2
      · rw [if_neg (lt_asymm h12), if_pos h12] at h2
        exact absurd h2 (by simp)
      · by_cases h21 : c2 < c1
        · rw [if_neg h12, if_pos h21] at h1
          exact absurd h1 (by simp)
        · have hc : c1 = c2 := le_antisymm (not_lt.mp h21) (not_lt.mp h12)
          subst hc
          rw [if_neg (lt_irrefl c1), if_neg (lt_irrefl c1)] at h1 h2
          rw [ih r2 h1 h2]

instance : IsTotal String (fun a b => strLE a b = true) :=
  ⟨fun a b => charListLE_total a.data b.data⟩

instance : IsTrans String (fun a b => strLE a b = true) :=
  ⟨fun a b c => charListLE_trans a.data b.data c.data⟩

instance : IsAntisymm String (fun a b => strLE a b = true) := by
  refine ⟨fun a b h1 h2 => ?_⟩
  have h3 := charListLE_antisymm a.data b.data h1 h2
  cases a; cases b
  exact congrArg String.mk (by simpa using h3)

theorem makeFieldE_sf (tag? : Option TagInfo) (kp : AKey) (nm : String) (v : GoVal)
    (sf : SField) (rv? : Option GoVal)
    (h : makeFieldE tag? kp nm v = some (sf, rv?)) :
    ∃ e, sf.aliasedKey = kp ++ [e] ∧ e.headD "" = nm := by
  rw [makeFieldE.eq_def] at h
  split at h
  · simp at h
  · simp only [Option.some.injEq, Prod.mk.injEq] at h
    obtain ⟨h1, -⟩ := h
    rw [← h1]
    refine ⟨_, rfl, ?_⟩
    cases tag? with
    | none => rfl
    | some ti =>
      dsimp only
      split <;> rfl

theorem lookupLit_mem : ∀ (entries : List (String × GoVal)) (k : String) (v : GoVal),
    lookupLit entries k = some v → (k, v) ∈ entries := by
  intro entries
  induction entries with
  | nil => intro k v h; simp [lookupLit] at h
  | cons p rest ih =>
    obtain ⟨k0, v0⟩ := p
    intro k v h
    rw [lookupLit] at h
    split at h
    · next heq =>
      injection h with h
      rw [← h]
      have : k0 = k := by simpa using heq
      rw [this]
      exact List.mem_cons_self _ _
    · exact List.mem_cons_of_mem _ (ih k v h)

theorem gsfrStructFields_aux (SZ : Nat)
    (IH : ∀ (w : GoVal) (key2 : AKey), sizeOf w < SZ → wfGoVal w →
      NoLaterAncestor (gsfr w key2) ∧
      ∀ f ∈ gsfr w key2, ∃ e t, f.aliasedKey = key2 ++ e :: t) :
    ∀ (flds : List (GoField × GoVal)) (key : AKey),
      (∀ info v, (info, v) ∈ flds → sizeOf v < SZ) →
      (flds.map fun p => p.1.name).Nodup →
      (∀ info v, (info, v) ∈ flds → wfGoVal v) →
      NoLaterAncestor (gsfrStructFields flds key) ∧
      ∀ f ∈ gsfrStructFields flds key, ∃ info v e t, (info, v) ∈ flds ∧
        f.aliasedKey = key ++ e :: t ∧ e.headD "" = info.name := by
  intro flds
  induction flds with
  | nil =>
    intro key _ _ _
    constructor
    · simpa [gsfrStructFields] using nla_nil
    · simp [gsfrStructFields]
  | cons p rest ih =>
    obtain ⟨info, val⟩ := p
    intro key hsz hnodup hwf
    have hszR : ∀ i v, (i, v) ∈ rest → sizeOf v < SZ :=
      fun i v h => hsz i v (List.mem_cons_of_mem _ h)
    have hnodupR : (rest.map fun p => p.1.name).Nodup := by
      simp only [List.map_cons, List.nodup_cons] at hnodup
      exact hnodup.2
    have hnameNot : info.name ∉ rest.map fun p => p.1.name := by
      simp only [List.map_cons, List.nodup_cons] at hnodup
      exact hnodup.1
    have hwfR : ∀ i v, (i, v) ∈ rest → wfGoVal v :=
      fun i v h => hwf i v (List.mem_cons_of_mem _ h)
    have ihr := ih key hszR hnodupR hwfR
    have hval : (info, val) ∈ (info, val) :: rest := List.mem_cons_self _ _
    rw [gsfrStructFields]
    split
    · exact ⟨ihr.1, fun f hf =>
        let ⟨i2, v2, e2, t2, hm2, hk2, hh2⟩ := ihr.2 f hf
        ⟨i2, v2, e2, t2, List.mem_cons_of_mem _ hm2, hk2, hh2⟩⟩
    · split
      · exact ⟨ihr.1, fun f hf =>
          let ⟨i2, v2, e2, t2, hm2, hk2, hh2⟩ := ihr.2 f hf
          ⟨i2, v2, e2, t2, List.mem_cons_of_mem _ hm2, hk2, hh2⟩⟩
      · next sf hmk =>
        obtain ⟨e0, hkey0, hhead0⟩ := makeFieldE_sf _ _ _ _ _ _ hmk
        constructor
        · apply nla_cons ihr.1
          intro g hg
          obtain ⟨i2, v2, e2, t2, hm2, hk2, hh2⟩ := ihr.2 g hg
          rw [hkey0, hk2]
          simp only [List.length_append, List.length_cons, List.length_singleton, List.length_nil]
          omega
        · intro f hf
          rcases List.mem_cons.mp hf with hfe | hf2
          · subst hfe
            exact ⟨info, val, e0, [], hval, hkey0, hhead0⟩
          · obtain ⟨i2, v2, e2, t2, hm2, hk2, hh2⟩ := ihr.2 f hf2
            exact ⟨i2, v2, e2, t2, List.mem_cons_of_mem _ hm2, hk2, hh2⟩
      · next sf rv hmk =>
        obtain ⟨e0, hkey0, hhead0⟩ := makeFieldE_sf _ _ _ _ _ _ hmk
        have hrv : rv = unwrapPtrs val := makeFieldE_rv _ _ _ _ _ _ hmk
        have hszrv : sizeOf rv < SZ := by
          rw [hrv]
          exact lt_of_le_of_lt (unwrapPtrs_sizeOf val) (hsz info val hval)
        have hwfrv : wfGoVal rv := by
          rw [hrv]
          exact wf_unwrapPtrs val (hwf info val hval)
        have ihc := IH rv sf.aliasedKey hszrv hwfrv
        have hchildShape : ∀ g ∈ gsfr rv sf.aliasedKey,
            ∃ t, g.aliasedKey = key ++ e0 :: t := by
          intro g hg
          obtain ⟨e2, t2, hk2⟩ := ihc.2 g hg
          rw [hkey0] at hk2
          exact ⟨e2 :: t2, by rw [hk2]; simp⟩
        have hcross : ∀ f2 ∈ gsfr rv sf.aliasedKey, ∀ g ∈ gsfrStructFields rest key,
            ¬ properLitPfx g.aliasedKey f2.aliasedKey := by
          intro f2 hf2 g hg hpfx
          obtain ⟨t1, hk1⟩ := hchildShape f2 hf2
          obtain ⟨i2, v2, e2, t2, hm2, hk2, hh2⟩ := ihr.2 g hg
          rw [hk1, hk2] at hpfx
          have heq := properLitPfx_same_head hpfx
          apply hnameNot
          have hni : i2.name = info.name := by rw [← hh2, heq, hhead0]
          exact hni ▸ List.mem_map_of_mem (fun p => p.1.name) hm2
        have hnla2 : NoLaterAncestor (gsfr rv sf.aliasedKey ++ gsfrStructFields rest key) :=
          nla_append ihc.1 ihr.1 hcross
        constructor
        · apply nla_cons hnla2
          intro g hg
          rcases List.mem_append.mp hg with hgc | hgr
          · obtain ⟨t1, hk1⟩ := hchildShape g hgc
            rw [hkey0, hk1]
            simp only [List.length_append, List.length_cons, List.length_singleton, List.length_nil]
            omega
          · obtain ⟨i2, v2, e2, t2, hm2, hk2, hh2⟩ := ihr.2 g hgr
            rw [hkey0, hk2]
            simp only [List.length_append, List.length_cons, List.length_singleton, List.length_nil]
            omega
        · intro f hf
          rcases List.mem_cons.mp hf with hfe | hf2
          · subst hfe
            exact ⟨info, val, e0, [], hval, hkey0, hhead0⟩
          · rcases List.mem_append.mp hf2 with hfc | hfr
            · obtain ⟨t1, hk1⟩ := hchildShape f hfc
              exact ⟨info, val, e0, t1, hval, hk1, hhead0⟩
            · obtain ⟨i2, v2, e2, t2, hm2, hk2, hh2⟩ := ihr.2 f hfr
              exact ⟨i2, v2, e2, t2, List.mem_cons_of_mem _ hm2, hk2, hh2⟩

theorem gsfrMapKeys_aux (SZ : Nat)
    (IH : ∀ (w : GoVal) (key2 : AKey), sizeOf w < SZ → wfGoVal w →
      NoLaterAncestor (gsfr w key2) ∧
      ∀ f ∈ gsfr w key2, ∃ e t, f.aliasedKey = key2 ++ e :: t)
    (entries : List (String × GoVal))
    (hsz : ∀ k v, (k, v) ∈ entries → sizeOf v < SZ)
    (hwf : ∀ k v, (k, v) ∈ entries → wfGoVal v) :
    ∀ (ks : List String) (key : AKey), ks.Nodup →
      NoLaterAncestor (gsfrMapKeys entries ks key) ∧
      ∀ f ∈ gsfrMapKeys entries ks key, ∃ k0 e t, k0 ∈ ks ∧
        f.aliasedKey = key ++ e :: t ∧ e.headD "" = k0 := by
  intro ks
  induction ks with
  | nil =>
    intro key _
    constructor
    · simpa [gsfrMapKeys] using nla_nil
    · simp [gsfrMapKeys]
  | cons k ks2 ih =>
    intro key hnodup
    have hnodup2 : ks2.Nodup := (List.nodup_cons.mp hnodup).2
    have hknot : k ∉ ks2 := (List.nodup_cons.mp hnodup).1
    have ihr := ih key hnodup2
    rw [gsfrMapKeys]
    split
    · exact ⟨ihr.1, fun f hf =>
        let ⟨k2, e2, t2, hm2, hk2, hh2⟩ := ihr.2 f hf
        ⟨k2, e2, t2, List.mem_cons_of_mem _ hm2, hk2, hh2⟩⟩
    · next val hlk =>
      split
      · exact ⟨ihr.1, fun f hf =>
          let ⟨k2, e2, t2, hm2, hk2, hh2⟩ := ihr.2 f hf
          ⟨k2, e2, t2, List.mem_cons_of_mem _ hm2, hk2, hh2⟩⟩
      · next sf hmk =>
        obtain ⟨e0, hkey0, hhead0⟩ := makeFieldE_sf _ _ _ _ _ _ hmk
        constructor
        · apply nla_cons ihr.1
          intro g hg
          obtain ⟨k2, e2, t2, hm2, hk2, hh2⟩ := ihr.2 g hg
          rw [hkey0, hk2]
          simp only [List.length_append, List.length_cons, List.length_singleton, List.length_nil]
          omega
        · intro f hf
          rcases List.mem_cons.mp hf with hfe | hf2
          · subst hfe
            exact ⟨k, e0, [], List.mem_cons_self _ _, hkey0, hhead0⟩
          · obtain ⟨k2, e2, t2, hm2, hk2, hh2⟩ := ihr.2 f hf2
            exact ⟨k2, e2, t2, List.mem_cons_of_mem _ hm2, hk2, hh2⟩
      · next sf rv hmk =>
        obtain ⟨e0, hkey0, hhead0⟩ := makeFieldE_sf _ _ _ _ _ _ hmk
        have hvmem : (k, val) ∈ entries := lookupLit_mem _ _ _ hlk
        have hrv : rv = unwrapPtrs val := makeFieldE_rv _ _ _ _ _ _ hmk
        have hszrv : sizeOf rv < SZ := by
          rw [hrv]
          exact lt_of_le_of_lt (unwrapPtrs_sizeOf val) (hsz k val hvmem)
        have hwfrv : wfGoVal rv := by
          rw [hrv]
          exact wf_unwrapPtrs val (hwf k val hvmem)
        have ihc := IH rv sf.aliasedKey hszrv hwfrv
        have hchildShape : ∀ g ∈ gsfr rv sf.aliasedKey,
            ∃ t, g.aliasedKey = key ++ e0 :: t := by
          intro g hg
          obtain ⟨e2, t2, hk2⟩ := ihc.2 g hg
          rw [hkey0] at hk2
          exact ⟨e2 :: t2, by rw [hk2]; simp⟩
        have hcross : ∀ f2 ∈ gsfr rv sf.aliasedKey, ∀ g ∈ gsfrMapKeys entries ks2 key,
            ¬ properLitPfx g.aliasedKey f2.aliasedKey := by
          intro f2 hf2 g hg hpfx
          obtain ⟨t1, hk1⟩ := hchildShape f2 hf2
          obtain ⟨k2, e2, t2, hm2, hk2, hh2⟩ := ihr.2 g hg
          rw [hk1, hk2] at hpfx
          have heq := properLitPfx_same_head hpfx
          apply hknot
          have hkk : k2 = k := by rw [← hh2, heq, hhead0]
          exact hkk ▸ hm2
        have hnla2 : NoLaterAncestor (gsfr rv sf.aliasedKey ++ gsfrMapKeys entries ks2 key) :=
          nla_append ihc.1 ihr.1 hcross
        constructor
        · apply nla_cons hnla2
          intro g hg
          rcases List.mem_append.mp hg with hgc | hgr
          · obtain ⟨t1, hk1⟩ := hchildShape g hgc
            rw [hkey0, hk1]
            simp only [List.length_append, List.length_cons, List.length_singleton, List.length_nil]
            omega
          · obtain ⟨k2, e2, t2, hm2, hk2, hh2⟩ := ihr.2 g hgr
            rw [hkey0, hk2]
            simp only [List.length_append, List.length_cons, List.length_singleton, List.length_nil]
            omega
        · intro f hf
          rcases List.mem_cons.mp hf with hfe | hf2
          · subst hfe
            exact ⟨k, e0, [], List.mem_cons_self _ _, hkey0, hhead0⟩
          · rcases List.mem_append.mp hf2 with hfc | hfr
            · obtain ⟨t1, hk1⟩ := hchildShape f hfc
              exact ⟨k, e0, t1, List.mem_cons_self _ _, hk1, hhead0⟩
            · obtain ⟨k2, e2, t2, hm2, hk2, hh2⟩ := ihr.2 f hfr
              exact ⟨k2, e2, t2, List.mem_cons_of_mem _ hm2, hk2, hh2⟩

theorem gsfr_nla (v : GoVal) (key : AKey) (hwf : wfGoVal v) :
    NoLaterAncestor (gsfr v key) ∧
    ∀ f ∈ gsfr v key, ∃ e t, f.aliasedKey = key ++ e :: t := by
  have H : ∀ (n : Nat) (w : GoVal) (key2 : AKey), sizeOf w ≤ n → wfGoVal w →
      NoLaterAncestor (gsfr w key2) ∧
      ∀ f ∈ gsfr w key2, ∃ e t, f.aliasedKey = key2 ++ e :: t := by
    intro n
    induction n using Nat.strong_induction_on with
    | _ n ihn =>
      intro w key2 hszn hwf
      have IH : ∀ (w2 : GoVal) (key3 : AKey), sizeOf w2 < sizeOf w → wfGoVal w2 →
          NoLaterAncestor (gsfr w2 key3) ∧
          ∀ f ∈ gsfr w2 key3, ∃ e t, f.aliasedKey = key3 ++ e :: t :=
        fun w2 key3 h2 hw2 =>
          ihn (sizeOf w2) (lt_of_lt_of_le h2 hszn) w2 key3 le_rfl hw2
      cases w with
      | vptr inner =>
        have h1 : gsfr (GoVal.vptr inner) key2 = gsfr inner key2 := by rw [gsfr]
        rw [h1]
        rw [wfGoVal] at hwf
        exact IH inner key2 (by simp only [GoVal.vptr.sizeOf_spec]; omega) hwf
      | vstruct t tu flds =>
        rw [wfGoVal] at hwf
        obtain ⟨hnodup, hwfall⟩ := hwf
        have h1 : gsfr (GoVal.vstruct t tu flds) key2 = gsfrStructFields flds key2 := by
          rw [gsfr]
        rw [h1]
        have hsz : ∀ info v2, (info, v2) ∈ flds → sizeOf v2 < sizeOf (GoVal.vstruct t tu flds) := by
          intro info v2 hm
          have := List.sizeOf_lt_of_mem hm
          simp only [GoVal.vstruct.sizeOf_spec] at *
          simp at this
          omega
        have := gsfrStructFields_aux (sizeOf (GoVal.vstruct t tu flds)) IH flds key2 hsz hnodup hwfall
        exact ⟨this.1, fun f hf =>
          let ⟨i2, v2, e2, t2, _, hk2, _⟩ := this.2 f hf
          ⟨e2, t2, hk2⟩⟩
      | vmap entries =>
        rw [wfGoVal] at hwf
        obtain ⟨hnodup, hwfall⟩ := hwf
        have h1 : gsfr (GoVal.vmap entries) key2 =
            gsfrMapKeys entries
              ((entries.map Prod.fst).insertionSort (fun a b => strLE a b = true)) key2 := by
          rw [gsfr]
        rw [h1]
        have hsz : ∀ k v2, (k, v2) ∈ entries → sizeOf v2 < sizeOf (GoVal.vmap entries) := by
          intro k v2 hm
          have := List.sizeOf_lt_of_mem hm
          simp only [GoVal.vmap.sizeOf_spec] at *
          simp at this
          omega
        have hksnodup :
            ((entries.map Prod.fst).insertionSort (fun a b => strLE a b = true)).Nodup :=
          (List.perm_insertionSort _ _).nodup_iff.mpr hnodup
        have := gsfrMapKeys_aux (sizeOf (GoVal.vmap entries)) IH entries hsz hwfall
          ((entries.map Prod.fst).insertionSort (fun a b => strLE a b = true)) key2 hksnodup
        exact ⟨this.1, fun f hf =>
          let ⟨k0, e2, t2, _, hk2, _⟩ := this.2 f hf
          ⟨e2, t2, hk2⟩⟩
      | vnil => rw [show gsfr GoVal.vnil key2 = [] from by simp [gsfr]]; exact ⟨nla_nil, by simp⟩
      | vbool b => rw [show gsfr (GoVal.vbool b) key2 = [] from by simp [gsfr]]; exact ⟨nla_nil, by simp⟩
      | vint n2 => rw [show gsfr (GoVal.vint n2) key2 = [] from by simp [gsfr]]; exact ⟨nla_nil, by simp⟩
      | vstr s => rw [show gsfr (GoVal.vstr s) key2 = [] from by simp [gsfr]]; exact ⟨nla_nil, by simp⟩
      | vslice t2 es => rw [show gsfr (GoVal.vslice t2 es) key2 = [] from by simp [gsfr]]; exact ⟨nla_nil, by simp⟩
      | vptrNil t2 => rw [show gsfr (GoVal.vptrNil t2) key2 = [] from by simp [gsfr]]; exact ⟨nla_nil, by simp⟩
  exact H (sizeOf v) v key le_rfl hwf

theorem lookupLit_perm {e1 e2 : List (String × GoVal)} (hp : e1.Perm e2) :
    (e1.map Prod.fst).Nodup → ∀ k, lookupLit e1 k = lookupLit e2 k := by
  induction hp with
  | nil => intro _ k; rfl
  | cons p h ih =>
    intro hnd k
    obtain ⟨k0, v0⟩ := p
    rw [lookupLit, lookupLit]
    split
    · rfl
    · refine ih ?_ k
      simp only [List.map_cons, List.nodup_cons] at hnd
      exact hnd.2
  | swap p q l =>
    intro hnd k
    obtain ⟨k1, v1⟩ := p
    obtain ⟨k2, v2⟩ := q
    simp only [lookupLit]
    by_cases h2 : k2 == k
    · by_cases h1 : k1 == k
      · exfalso
        simp only [List.map_cons, List.nodup_cons, List.mem_cons] at hnd
        have e1 : k1 = k := by simpa using h1
        have e2 : k2 = k := by simpa using h2
        exact hnd.1 (Or.inl (by rw [e1, e2]))
      · rw [if_pos h2, if_neg h1, if_pos h2]
    · by_cases h1 : k1 == k
      · rw [if_neg h2, if_pos h1, if_pos h1]
      · rw [if_neg h2, if_neg h1, if_neg h1, if_neg h2]
  | trans h12 h23 ih1 ih2 =>
    intro hnd k
    refine (ih1 hnd k).trans (ih2 ?_ k)
    exact ((h12.map Prod.fst).nodup_iff).mp hnd

theorem gsfrMapKeys_cons_none (entries : List (String × GoVal)) (k : String)
    (ks : List String) (key : AKey) (h : lookupLit entries k = none) :
    gsfrMapKeys entries (k :: ks) key = gsfrMapKeys entries ks key := by
  rw [gsfrMapKeys]
  split
  · rfl
  · next val heq =>
    simp [h] at heq

theorem gsfrMapKeys_cons_skip (entries : List (String × GoVal)) (k : String)
    (ks : List String) (key : AKey) (val : GoVal)
    (h1 : lookupLit entries k = some val) (h2 : makeFieldE none key k val = none) :
    gsfrMapKeys entries (k :: ks) key = gsfrMapKeys entries ks key := by
  rw [gsfrMapKeys]
  split
  · next heq => simp [h1] at heq
  · next val2 heq =>
    rw [h1] at heq
    injection heq with heq
    subst heq
    split
    · rfl
    · next sf hmk => simp [h2] at hmk
    · next sf rv hmk => simp [h2] at hmk

theorem gsfrMapKeys_cons_leaf (entries : List (String × GoVal)) (k : String)
    (ks : List String) (key : AKey) (val : GoVal) (sf : SField)
    (h1 : lookupLit entries k = some val) (h2 : makeFieldE none key k val = some (sf, none)) :
    gsfrMapKeys entries (k :: ks) key = sf :: gsfrMapKeys entries ks key := by
  rw [gsfrMapKeys]
  split
  · next heq => simp [h1] at heq
  · next val2 heq =>
    rw [h1] at heq
    injection heq with heq
    subst heq
    split
    · next hmk => simp [h2] at hmk
    · next sf2 hmk =>
      rw [h2] at hmk
      simp only [Option.some.injEq, Prod.mk.injEq, and_true] at hmk
      subst hmk
      rfl
    · next sf2 rv2 hmk => simp [h2] at hmk

theorem gsfrMapKeys_cons_branch (entries : List (String × GoVal)) (k : String)
    (ks : List String) (key : AKey) (val : GoVal) (sf : SField) (rv : GoVal)
    (h1 : lookupLit entries k = some val)
    (h2 : makeFieldE none key k val = some (sf, some rv)) :
    gsfrMapKeys entries (k :: ks) key =
      sf :: (gsfr rv sf.aliasedKey ++ gsfrMapKeys entries ks key) := by
  rw [gsfrMapKeys]
  split
  · next heq => simp [h1] at heq
  · next val2 heq =>
    rw [h1] at heq
    injection heq with heq
    subst heq
    split
    · next hmk => simp [h2] at hmk
    · next sf2 hmk => simp [h2] at hmk
    · next sf2 rv2 hmk =>
      rw [h2] at hmk
      simp only [Option.some.injEq, Prod.mk.injEq] at hmk
      obtain ⟨h3, h4⟩ := hmk
      subst h3
      subst h4
      rfl

theorem gsfrMapKeys_congr {e1 e2 : List (String × GoVal)}
    (hlk : ∀ k, lookupLit e1 k = lookupLit e2 k) :
    ∀ (ks : List String) (key : AKey), gsfrMapKeys e1 ks key = gsfrMapKeys e2 ks key := by
  intro ks
  induction ks with
  | nil => intro key; rw [gsfrMapKeys, gsfrMapKeys]
  | cons k ks2 ih =>
    intro key
    cases hv : lookupLit e1 k with
    | none =>
      rw [gsfrMapKeys_cons_none e1 k ks2 key hv,
        gsfrMapKeys_cons_none e2 k ks2 key ((hlk k).symm.trans hv), ih]
    | some val =>
      have hv2 : lookupLit e2 k = some val := (hlk k).symm.trans hv
      rcases hmk : makeFieldE none key k val with - | ⟨sf, - | rv⟩
      · rw [gsfrMapKeys_cons_skip e1 k ks2 key val hv hmk,
          gsfrMapKeys_cons_skip e2 k ks2 key val hv2 hmk, ih]
      · rw [gsfrMapKeys_cons_leaf e1 k ks2 key val sf hv hmk,
          gsfrMapKeys_cons_leaf e2 k ks2 key val sf hv2 hmk, ih]
      · rw [gsfrMapKeys_cons_branch e1 k ks2 key val sf rv hv hmk,
          gsfrMapKeys_cons_branch e2 k ks2 key val sf rv hv2 hmk, ih]

theorem get_mem_drop : ∀ (l : List SField) (n i : Nat) (h : i < l.length), n ≤ i →
    l.get ⟨i, h⟩ ∈ l.drop n := by
  intro l n
  induction n generalizing l with
  | zero =>
    intro i h _
    simpa using List.get_mem l ⟨i, h⟩
  | succ n2 ih =>
    intro i h hle
    cases l with
    | nil => simp at h
    | cons x t =>
      cases i with
      | zero => omega
      | succ i2 =>
        simp only [List.drop_succ_cons]
        have h2 : i2 < t.length := by simp at h; omega
        have := ih t i2 h2 (by omega)
        simpa using this

/-- C5: (i) for every well-formed value, a descriptor whose key is a
literal proper prefix of another descriptor's key (its ancestor in the
extraction tree) appears at a strictly smaller index — branch before
leaf; (ii) extraction of the same logical map (equal up to entry
order, with distinct keys) yields the identical descriptor sequence,
because map children are visited in sorted key order. -/
theorem c5_extraction_order :
    (∀ (v : GoVal), wfGoVal v →
      ∀ (i j : Nat) (hi : i < (GetStructFields v).length)
        (hj : j < (GetStructFields v).length),
        properLitPfx ((GetStructFields v).get ⟨i, hi⟩).aliasedKey
          ((GetStructFields v).get ⟨j, hj⟩).aliasedKey → i < j) ∧
    (∀ (m1 m2 : GoMap), m1.Perm m2 → (m1.map Prod.fst).Nodup →
      GetStructFields (.vmap m1) = GetStructFields (.vmap m2)) := by
  constructor
  · intro v hwf i j hi hj hpfx
    by_contra hij
    have hji : j ≤ i := by omega
    rcases Nat.eq_or_lt_of_le hji with heq | hlt
    · subst heq
      exact absurd hpfx.1 (by omega)
    · -- j < i : the descriptor at i is an ancestor of the one at j but occurs later
      have hsplit : GetStructFields v =
          (GetStructFields v).take j ++
            (GetStructFields v).get ⟨j, hj⟩ :: (GetStructFields v).drop (j + 1) := by
        conv_lhs => rw [← List.take_append_drop j (GetStructFields v)]
        rw [List.get_cons_drop]
      have hmem : (GetStructFields v).get ⟨i, hi⟩ ∈ (GetStructFields v).drop (j + 1) :=
        get_mem_drop _ (j + 1) i hi (by omega)
      have hnla := (gsfr_nla v [] hwf).1
      exact hnla _ _ _ hsplit _ hmem hpfx
  · intro m1 m2 hperm hnd
    rw [GetStructFields, GetStructFields]
    have h1 : gsfr (GoVal.vmap m1) [] =
        gsfrMapKeys m1 ((m1.map Prod.fst).insertionSort (fun a b => strLE a b = true)) [] := by
      rw [gsfr]
    have h2 : gsfr (GoVal.vmap m2) [] =
        gsfrMapKeys m2 ((m2.map Prod.fst).insertionSort (fun a b => strLE a b = true)) [] := by
      rw [gsfr]
    rw [h1, h2]
    have hks : (m1.map Prod.fst).insertionSort (fun a b => strLE a b = true) =
        (m2.map Prod.fst).insertionSort (fun a b => strLE a b = true) := by
      exact List.eq_of_perm_of_sorted
        (((List.perm_insertionSort _ _).trans (hperm.map Prod.fst)).trans
          (List.perm_insertionSort _ _).symm)
        (List.sorted_insertionSort _ _) (List.sorted_insertionSort _ _)
    rw [hks]
    exact gsfrMapKeys_congr (lookupLit_perm hperm hnd) _ _

/-- C5 witness: the map with an inner branch a.x places a before a.x,
and two entry orders of the same two-key map extract identically. -/
theorem c5_witness :
    0 < 1 ∧
    GetStructFields (.vmap [("b", GoVal.vint 2), ("a", GoVal.vint 1)]) =
      GetStructFields (.vmap [("a", GoVal.vint 1), ("b", GoVal.vint 2)]) := by
  have hM : GetStructFields (GoVal.vmap [("a", GoVal.vmap [("x", GoVal.vint 1)])]) =
      [{ aliasedKey := [["a"]], optional := false, typ := "map[string]interface \x7b\x7d",
         kind := "map", expectedType := "" },
       { aliasedKey := [["a"], ["x"]], optional := false, typ := "int", kind := "int",
         expectedType := "" }] := by
    simp [GetStructFields, gsfr, gsfrMapKeys, makeFieldE, unwrapPtrs, lookupLit,
      GoVal.kindName, GoVal.typeName, GoVal.implementsTU, List.insertionSort,
      List.orderedInsert, splitTag, strLE, charListLE]
  have hwfM : wfGoVal (GoVal.vmap [("a", GoVal.vmap [("x", GoVal.vint 1)])]) := by
    rw [wfGoVal]
    refine ⟨by simp, ?_⟩
    intro k v hm
    simp only [List.mem_singleton, Prod.mk.injEq] at hm
    rw [hm.2, wfGoVal]
    refine ⟨by simp, ?_⟩
    intro k2 v2 hm2
    simp only [List.mem_singleton, Prod.mk.injEq] at hm2
    rw [hm2.2, wfGoVal]
    trivial
  have h0 : 0 < (GetStructFields (GoVal.vmap [("a", GoVal.vmap [("x", GoVal.vint 1)])])).length := by
    rw [hM]; simp
  have h1 : 1 < (GetStructFields (GoVal.vmap [("a", GoVal.vmap [("x", GoVal.vint 1)])])).length := by
    rw [hM]; simp
  have hpfx : properLitPfx
      ((GetStructFields (GoVal.vmap [("a", GoVal.vmap [("x", GoVal.vint 1)])])).get ⟨0, h0⟩).aliasedKey
      ((GetStructFields (GoVal.vmap [("a", GoVal.vmap [("x", GoVal.vint 1)])])).get ⟨1, h1⟩).aliasedKey := by
    rw [List.get_of_eq hM, List.get_of_eq hM]
    show properLitPfx [["a"]] [["a"], ["x"]]
    exact ⟨by decide, by decide⟩
  refine ⟨c5_extraction_order.1 _ hwfM 0 1 h0 h1 hpfx, c5_extraction_order.2 _ _ ?_ ?_⟩
  · exact List.Perm.swap _ _ _
  · simp

/-- Descendant relation generated by the children links of the
reference field tree. -/
inductive IsDesc (children : Nat → List Nat) : Nat → Nat → Prop where
  | child {i j : Nat} : j ∈ children i → IsDesc children i j
  | step {i j k : Nat} : j ∈ children i → IsDesc children j k → IsDesc children i k

theorem isDesc_mem_suffix {children : Nat → List Nat} {l : List Nat}
    (hord : ∀ l1 i l2, l = l1 ++ i :: l2 → ∀ j ∈ children i, j ∈ l2) :
    ∀ {b x : Nat}, IsDesc children b x → ∀ l1 l2, l = l1 ++ b :: l2 → x ∈ l2 := by
  intro b x hdesc
  induction hdesc with
  | child hj =>
    intro l1 l2 hsplit
    exact hord l1 _ l2 hsplit _ hj
  | step hj hd ih =>
    intro l1 l2 hsplit
    rename_i i0 j0 k0
    have hjl2 := hord l1 _ l2 hsplit _ hj
    obtain ⟨s, t, hst⟩ := List.append_of_mem hjl2
    have hsplit2 : l = (l1 ++ i0 :: s) ++ j0 :: t := by
      rw [hsplit, hst]
      simp
    have hxt := ih (l1 ++ i0 :: s) t hsplit2
    rw [hst]
    exact List.mem_append.mpr (Or.inr (List.mem_cons_of_mem _ hxt))

theorem finalizeMissing_mem (children : Nat → List Nat) :
    ∀ (l : List Nat) (opt : Nat → Bool),
      (∀ l1 i l2, l = l1 ++ i :: l2 → ∀ j ∈ children i, j ∈ l2) →
      l.Nodup →
      ∀ x, x ∈ finalizeMissing children l opt ↔
        x ∈ l ∧ ¬(opt x = true ∨ ∃ b ∈ l, opt b = true ∧ IsDesc children b x) := by
  intro l
  induction l with
  | nil =>
    intro opt _ _ x
    simp [finalizeMissing]
  | cons f rest ih =>
    intro opt hord hnd x
    have hfnotin : f ∉ rest := (List.nodup_cons.mp hnd).1
    have hndr : rest.Nodup := (List.nodup_cons.mp hnd).2
    have hordr : ∀ l1 i l2, rest = l1 ++ i :: l2 → ∀ j ∈ children i, j ∈ l2 :=
      fun l1 i l2 hs j hj => hord (f :: l1) i l2 (by rw [hs]; rfl) j hj
    have hchf : ∀ j ∈ children f, j ∈ rest := fun j hj => hord [] f rest rfl j hj
    have hfnotchf : f ∉ children f := fun hc => hfnotin (hchf f hc)
    have hopt2f : propagateOptional children opt f f = opt f := by
      rw [propagateOptional]
      split
      · simp [hfnotchf]
      · rfl
    have ihr := ih (propagateOptional children opt f) hordr hndr
    rw [finalizeMissing]
    constructor
    · intro hx
      rcases List.mem_append.mp hx with hx1 | hx2
      · have hxf : ¬(propagateOptional children opt f f = true) ∧ x = f := by
          split at hx1
          · simp at hx1
          · next hfalse => exact ⟨by simpa using hfalse, by simpa using hx1⟩
        obtain ⟨hoptf, rfl⟩ := hxf
        rw [hopt2f] at hoptf
        refine ⟨List.mem_cons_self _ _, ?_⟩
        rintro (hopt | ⟨b, hb, hoptb, hdesc⟩)
        · exact hoptf hopt
        · rcases List.mem_cons.mp hb with rfl | hbr
          · exact hfnotin (isDesc_mem_suffix hord hdesc [] rest rfl)
          · obtain ⟨s, t, hst⟩ := List.append_of_mem hbr
            have hsplit : x :: rest = (x :: s) ++ b :: t := by rw [hst]; rfl
            have hft := isDesc_mem_suffix hord hdesc (x :: s) t hsplit
            apply hfnotin
            rw [hst]
            exact List.mem_append.mpr (Or.inr (List.mem_cons_of_mem _ hft))
      · have hxr := (ihr x).mp hx2
        refine ⟨List.mem_cons_of_mem _ hxr.1, ?_⟩
        intro hF
        apply hxr.2
        rcases hF with hopt | ⟨b, hb, hoptb, hdesc⟩
        · left
          rw [propagateOptional]
          split
          · simp [hopt]
          · exact hopt
        · rcases List.mem_cons.mp hb with rfl | hbr
          · cases hdesc with
            | child hj =>
              left
              rw [propagateOptional]
              rw [if_pos (by simp [hoptb, List.isEmpty_iff]; exact fun hc => List.not_mem_nil _ (hc ▸ hj))]
              simp [hj]
            | step hj hd =>
              right
              rename_i c
              refine ⟨c, hchf c hj, ?_, hd⟩
              rw [propagateOptional]
              rw [if_pos (by simp [hoptb, List.isEmpty_iff]; exact fun hc => List.not_mem_nil _ (hc ▸ hj))]
              simp [hj]
          · right
            refine ⟨b, hbr, ?_, hdesc⟩
            rw [propagateOptional]
            split
            · simp [hoptb]
            · exact hoptb
    · rintro ⟨hxmem, hnF⟩
      rcases List.mem_cons.mp hxmem with rfl | hxr
      · have hoptf : ¬(opt x = true) := fun h => hnF (Or.inl h)
        apply List.mem_append.mpr
        left
        rw [if_neg (by rw [hopt2f]; exact hoptf)]
        simp
      · apply List.mem_append.mpr
        right
        apply (ihr x).mpr
        refine ⟨hxr, ?_⟩
        rintro (hopt2x | ⟨b, hbr, hopt2b, hdesc⟩)
        · apply hnF
          rw [propagateOptional] at hopt2x
          split at hopt2x
          · next hcond =>
            rcases (by simpa using hopt2x : opt x = true ∨ x ∈ children f) with h | h
            · exact Or.inl h
            · right
              exact ⟨f, List.mem_cons_self _ _, (by simp at hcond; exact hcond.1),
                IsDesc.child h⟩
          · exact Or.inl hopt2x
        · apply hnF
          rw [propagateOptional] at hopt2b
          split at hopt2b
          · next hcond =>
            rcases (by simpa using hopt2b : opt b = true ∨ b ∈ children f) with h | h
            · exact Or.inr ⟨b, List.mem_cons_of_mem _ hbr, h, hdesc⟩
            · right
              exact ⟨f, List.mem_cons_self _ _, (by simp at hcond; exact hcond.1),
                IsDesc.step h hdesc⟩
          · exact Or.inr ⟨b, List.mem_cons_of_mem _ hbr, hopt2b, hdesc⟩

/-- C2: over the ordered absent-field list (children occur after
their parent, fields are distinct), Load's finalize pass treats a
field as optional exactly when its own flag is set or it descends
(recursively, through the list) from an absent optional branch:
(i) the missing list contains exactly the absent fields that are not
optional in that sense — so it lists every missing required field of
the single pass, not just the first; (ii) every descendant of an
absent optional branch is excluded; (iii) the pass fails if and only
if some absent field is not optional in that sense, and (iv) the
error carries the whole missing list. -/
theorem c2_finalize_optional_propagation (children : Nat → List Nat)
    (l : List Nat) (opt : Nat → Bool)
    (hord : ∀ l1 i l2, l = l1 ++ i :: l2 → ∀ j ∈ children i, j ∈ l2)
    (hnd : l.Nodup) :
    (∀ x, x ∈ finalizeMissing children l opt ↔
        x ∈ l ∧ ¬(opt x = true ∨ ∃ b ∈ l, opt b = true ∧ IsDesc children b x)) ∧
    (∀ b ∈ l, opt b = true → ∀ d, IsDesc children b d →
        d ∉ finalizeMissing children l opt) ∧
    (finalizeAbsent children l opt = .ok () ↔
        ∀ x ∈ l, opt x = true ∨ ∃ b ∈ l, opt b = true ∧ IsDesc children b x) ∧
    (∀ ms, finalizeAbsent children l opt = .error ms →
        ms = finalizeMissing children l opt) := by
  have hchar := finalizeMissing_mem children l opt hord hnd
  refine ⟨hchar, ?_, ?_, ?_⟩
  · intro b hb hoptb d hdesc hdmem
    exact ((hchar d).mp hdmem).2 (Or.inr ⟨b, hb, hoptb, hdesc⟩)
  · rw [finalizeAbsent]
    constructor
    · intro hok x hx
      split at hok
      · next hemp =>
        by_contra hnF
        have hmem : x ∈ finalizeMissing children l opt := (hchar x).mpr ⟨hx, hnF⟩
        have hnil : finalizeMissing children l opt = [] := by
          simpa [List.isEmpty_iff] using hemp
        rw [hnil] at hmem
        simp at hmem
      · next => exact absurd hok (by simp)
    · intro hall
      have hemp : finalizeMissing children l opt = [] := by
        apply List.eq_nil_iff_forall_not_mem.mpr
        intro x hx
        exact ((hchar x).mp hx).2 (hall x ((hchar x).mp hx).1)
      rw [if_pos (by simp [hemp])]
  · intro ms hms
    rw [finalizeAbsent] at hms
    split at hms
    · exact absurd hms (by simp)
    · injection hms with hms
      exact hms.symm

/-- C2 witness: reference tree 0 → 1 → 2 with absent list [0, 1, 2]
and only field 0 flagged optional: the descendant 2 is not reported
missing and the finalize pass succeeds. -/
theorem c2_witness :
    (2 ∉ finalizeMissing (fun n => if n = 0 then [1] else if n = 1 then [2] else [])
      [0, 1, 2] (fun n => n == 0)) ∧
    finalizeAbsent (fun n => if n = 0 then [1] else if n = 1 then [2] else [])
      [0, 1, 2] (fun n => n == 0) = .ok () := by
  have hord : ∀ l1 i l2, ([0, 1, 2] : List Nat) = l1 ++ i :: l2 →
      ∀ j ∈ (fun n => if n = 0 then [1] else if n = 1 then [2] else ([] : List Nat)) i,
        j ∈ l2 := by
    intro l1 i l2 h j hj
    rcases l1 with - | ⟨a, - | ⟨b, - | ⟨c, l1⟩⟩⟩
    · simp only [List.nil_append, List.cons.injEq] at h
      obtain ⟨rfl, rfl⟩ := h
      simp at hj
      simp [hj]
    · simp only [List.cons_append, List.nil_append, List.cons.injEq] at h
      obtain ⟨rfl, rfl, rfl⟩ := h
      simp at hj
      simp [hj]
    · simp only [List.cons_append, List.nil_append, List.cons.injEq] at h
      obtain ⟨rfl, rfl, rfl, rfl⟩ := h
      simp at hj
    · simp at h
  have hnd : ([0, 1, 2] : List Nat).Nodup := by decide
  have hmain := c2_finalize_optional_propagation
    (fun n => if n = 0 then [1] else if n = 1 then [2] else []) [0, 1, 2]
    (fun n => n == 0) hord hnd
  constructor
  · exact hmain.2.1 0 (by decide) (by decide) 2
      (@IsDesc.step _ 0 1 2 (by decide) (@IsDesc.child _ 1 2 (by decide)))
  · apply hmain.2.2.1.mpr
    intro x hx
    rcases (by simpa using hx : x = 0 ∨ x = 1 ∨ x = 2) with rfl | rfl | rfl
    · left; decide
    · right
      exact ⟨0, by decide, by decide, @IsDesc.child _ 0 1 (by decide)⟩
    · right
      exact ⟨0, by decide, by decide,
        @IsDesc.step _ 0 1 2 (by decide) (@IsDesc.child _ 1 2 (by decide))⟩

/-- Whether a key falls under one of the recorded stop prefixes. -/
def underAny (k : AKey) (skips : List AKey) : Bool :=
  skips.any fun p => akHasPfx k p

/-- The stop-prefix bookkeeping of one verifier iteration, stated
standalone: a candidate that is skipped, unmatched, or whose type
check does not say noDeeper leaves the stop list unchanged; a matched
candidate with noDeeper appends its key. -/
def stepSkip (codecFTC : SField → SField → Except String Bool) (gold : List SField)
    (skips : List AKey) (cf : SField) : List AKey :=
  if underAny cf.aliasedKey skips then skips
  else
    match findStructField gold cf.aliasedKey with
    | none => skips
    | some gf =>
      match fieldTypesConsistent codecFTC cf gf with
      | .ok true => skips ++ [cf.aliasedKey]
      | _ => skips

/-- The stop prefixes recorded after processing a candidate list,
starting from s0. -/
def skipsAfter (codecFTC : SField → SField → Except String Bool) (gold : List SField)
    (s0 : List AKey) (check : List SField) : List AKey :=
  check.foldl (stepSkip codecFTC gold) s0

/-- Some candidate field, not under the stop prefixes recorded before
it, finds no reference field: the vestigial-field situation. -/
def HasUnknown (codecFTC : SField → SField → Except String Bool) (gold : List SField)
    (s0 : List AKey) (check : List SField) : Prop :=
  ∃ k1 cf k2, check = k1 ++ cf :: k2 ∧
    underAny cf.aliasedKey (skipsAfter codecFTC gold s0 k1) = false ∧
    findStructField gold cf.aliasedKey = none

/-- The reference field a was matched by some candidate field that was
processed (not under the stop prefixes recorded before it). -/
def WasHit (codecFTC : SField → SField → Except String Bool) (gold : List SField)
    (s0 : List AKey) (check : List SField) (a : SField) : Prop :=
  ∃ k1 cf k2, check = k1 ++ cf :: k2 ∧
    underAny cf.aliasedKey (skipsAfter codecFTC gold s0 k1) = false ∧
    ∃ gf, findStructField gold cf.aliasedKey = some gf ∧
      akEqual a.aliasedKey gf.aliasedKey = true

/-- A reference schema is unambiguous when no reference key matches
two distinct reference fields (the natural well-formedness of a
schema; otherwise findStructField's answer is arbitrary). -/
def GoldUnambiguous (gold : List SField) : Prop :=
  ∀ a ∈ gold, ∀ b ∈ gold, ∀ c ∈ gold,
    akEqual a.aliasedKey c.aliasedKey = true →
    akEqual b.aliasedKey c.aliasedKey = true → a = b

theorem findStructField_mem : ∀ (fields : List SField) (k : AKey) (gf : SField),
    findStructField fields k = some gf → gf ∈ fields ∧ akEqual k gf.aliasedKey = true := by
  intro fields
  induction fields with
  | nil => intro k gf h; simp [findStructField] at h
  | cons f rest ih =>
    intro k gf h
    rw [findStructField] at h
    split at h
    · have := ih k gf h
      exact ⟨List.mem_cons_of_mem _ this.1, this.2⟩
    · split at h
      · next heq =>
        injection h with h
        subst h
        exact ⟨List.mem_cons_self _ _, heq⟩
      · have := ih k gf h
        exact ⟨List.mem_cons_of_mem _ this.1, this.2⟩

theorem removeAbsent_sublist (key : AKey) :
    ∀ (absents : List SField), (removeAbsentCandidate key absents).Sublist absents := by
  intro absents
  induction absents with
  | nil => simp [removeAbsentCandidate]
  | cons b rest ih =>
    rw [removeAbsentCandidate]
    split
    · exact List.sublist_cons_self _ _
    · exact List.Sublist.cons₂ _ ih

theorem akEqual_symm : ∀ (k1 k2 : AKey), akEqual k1 k2 = akEqual k2 k1 := by
  intro k1
  induction k1 with
  | nil => intro k2; cases k2 <;> simp [akEqual]
  | cons e1 r1 ih =>
    intro k2
    cases k2 with
    | nil => simp [akEqual]
    | cons e2 r2 =>
      rw [akEqual, akEqual, ih r2]
      have hf : ∀ x y : String, eqFold x y = true → eqFold y x = true := by
        intro x y h
        simp only [eqFold, beq_iff_eq] at h ⊢
        exact h.symm
      have : elemEqual e1 e2 = elemEqual e2 e1 := by
        rw [Bool.eq_iff_iff]
        simp only [elemEqual, List.any_eq_true]
        constructor
        · rintro ⟨a, ha, b, hb, hab⟩
          exact ⟨b, hb, a, ha, hf a b hab⟩
        · rintro ⟨a, ha, b, hb, hab⟩
          exact ⟨b, hb, a, ha, hf a b hab⟩
      rw [this]

theorem removeAbsent_spec {gold : List SField} (hnd : gold.Nodup)
    (hwf : ∀ g ∈ gold, akEqual g.aliasedKey g.aliasedKey = true)
    (hunamb : GoldUnambiguous gold) (gf : SField) (hgf : gf ∈ gold) :
    ∀ (absents : List SField), absents.Sublist gold →
      ∀ a, a ∈ removeAbsentCandidate gf.aliasedKey absents ↔
        a ∈ absents ∧ akEqual a.aliasedKey gf.aliasedKey = false := by
  intro absents
  induction absents with
  | nil =>
    intro _ a
    simp [removeAbsentCandidate]
  | cons b rest ih =>
    intro hsub a
    have hsubr : rest.Sublist gold := List.sublist_of_cons_sublist hsub
    have hbg : b ∈ gold := hsub.mem (List.mem_cons_self _ _)
    have hndbr : (b :: rest).Nodup := hsub.nodup hnd
    rw [removeAbsentCandidate]
    split
    · next hbeq =>
      constructor
      · intro ha
        refine ⟨List.mem_cons_of_mem _ ha, ?_⟩
        by_contra haeq
        rw [Bool.not_eq_false] at haeq
        have hag : a ∈ gold := hsubr.mem ha
        have hba : b = a := by
          have h1 := hunamb b hbg a hag gf hgf hbeq haeq
          exact h1
        rw [hba] at hndbr
        exact (List.nodup_cons.mp hndbr).1 ha
      · rintro ⟨hmem, haeq⟩
        rcases List.mem_cons.mp hmem with rfl | hmem2
        · rw [hbeq] at haeq
          exact absurd haeq (by simp)
        · exact hmem2
    · next hbne =>
      constructor
      · intro ha
        rcases List.mem_cons.mp ha with rfl | ha2
        · exact ⟨List.mem_cons_self _ _, by simpa using hbne⟩
        · have := (ih hsubr a).mp ha2
          exact ⟨List.mem_cons_of_mem _ this.1, this.2⟩
      · rintro ⟨hmem, haeq⟩
        rcases List.mem_cons.mp hmem with rfl | hmem2
        · exact List.mem_cons_self _ _
        · exact List.mem_cons_of_mem _ ((ih hsubr a).mpr ⟨hmem2, haeq⟩)

theorem skipsAfter_cons (codecFTC : SField → SField → Except String Bool)
    (gold : List SField) (s0 : List AKey) (cf : SField) (rest : List SField) :
    skipsAfter codecFTC gold s0 (cf :: rest) =
      skipsAfter codecFTC gold (stepSkip codecFTC gold s0 cf) rest := rfl

theorem skipsAfter_nil (codecFTC : SField → SField → Except String Bool)
    (gold : List SField) (s0 : List AKey) : skipsAfter codecFTC gold s0 [] = s0 := rfl

theorem hasUnknown_cons (codecFTC : SField → SField → Except String Bool)
    (gold : List SField) (s0 : List AKey) (cf : SField) (rest : List SField) :
    HasUnknown codecFTC gold s0 (cf :: rest) ↔
      (underAny cf.aliasedKey s0 = false ∧ findStructField gold cf.aliasedKey = none) ∨
      HasUnknown codecFTC gold (stepSkip codecFTC gold s0 cf) rest := by
  constructor
  · rintro ⟨k1, cf2, k2, hsplit, hunder, hfind⟩
    cases k1 with
    | nil =>
      simp only [List.nil_append, List.cons.injEq] at hsplit
      obtain ⟨rfl, -⟩ := hsplit
      exact Or.inl ⟨by simpa [skipsAfter_nil] using hunder, hfind⟩
    | cons x k1t =>
      simp only [List.cons_append, List.cons.injEq] at hsplit
      obtain ⟨rfl, hrest⟩ := hsplit
      right
      exact ⟨k1t, cf2, k2, hrest, by rwa [skipsAfter_cons] at hunder, hfind⟩
  · rintro (⟨hunder, hfind⟩ | ⟨k1, cf2, k2, hsplit, hunder, hfind⟩)
    · exact ⟨[], cf, rest, rfl, by simpa [skipsAfter_nil] using hunder, hfind⟩
    · exact ⟨cf :: k1, cf2, k2, by rw [hsplit]; rfl,
        by rwa [skipsAfter_cons], hfind⟩

theorem wasHit_cons (codecFTC : SField → SField → Except String Bool)
    (gold : List SField) (s0 : List AKey) (cf : SField) (rest : List SField) (a : SField) :
    WasHit codecFTC gold s0 (cf :: rest) a ↔
      (underAny cf.aliasedKey s0 = false ∧
        ∃ gf, findStructField gold cf.aliasedKey = some gf ∧
          akEqual a.aliasedKey gf.aliasedKey = true) ∨
      WasHit codecFTC gold (stepSkip codecFTC gold s0 cf) rest a := by
  constructor
  · rintro ⟨k1, cf2, k2, hsplit, hunder, hfind⟩
    cases k1 with
    | nil =>
      simp only [List.nil_append, List.cons.injEq] at hsplit
      obtain ⟨rfl, -⟩ := hsplit
      exact Or.inl ⟨by simpa [skipsAfter_nil] using hunder, hfind⟩
    | cons x k1t =>
      simp only [List.cons_append, List.cons.injEq] at hsplit
      obtain ⟨rfl, hrest⟩ := hsplit
      right
      exact ⟨k1t, cf2, k2, hrest, by rwa [skipsAfter_cons] at hunder, hfind⟩
  · rintro (⟨hunder, hfind⟩ | ⟨k1, cf2, k2, hsplit, hunder, hfind⟩)
    · exact ⟨[], cf, rest, rfl, by simpa [skipsAfter_nil] using hunder, hfind⟩
    · exact ⟨cf :: k1, cf2, k2, by rw [hsplit]; rfl,
        by rwa [skipsAfter_cons], hfind⟩

theorem verifyLoop_spec (codecFTC : SField → SField → Except String Bool)
    {gold : List SField} (hnd : gold.Nodup)
    (hwf : ∀ g ∈ gold, akEqual g.aliasedKey g.aliasedKey = true)
    (hunamb : GoldUnambiguous gold) :
    ∀ (check : List SField) (absents : List SField) (skips : List AKey),
      absents.Sublist gold →
      (∀ cf ∈ check, ∀ gf ∈ gold, (fieldTypesConsistent codecFTC cf gf).isOk = true) →
      (¬ HasUnknown codecFTC gold skips check →
        ∃ absF, verifyLoop codecFTC gold check absents skips =
            .ok (absF, skipsAfter codecFTC gold skips check) ∧
          ∀ a, a ∈ absF ↔ a ∈ absents ∧ ¬ WasHit codecFTC gold skips check a) ∧
      (HasUnknown codecFTC gold skips check →
        ∃ cf k1 k2, verifyLoop codecFTC gold check absents skips =
            .error (.unknownField cf) ∧
          check = k1 ++ cf :: k2 ∧
          underAny cf.aliasedKey (skipsAfter codecFTC gold skips k1) = false ∧
          findStructField gold cf.aliasedKey = none) := by
  intro check
  induction check with
  | nil =>
    intro absents skips hsub _
    constructor
    · intro _
      refine ⟨absents, rfl, fun a => ?_⟩
      simp only [WasHit]
      constructor
      · intro ha
        exact ⟨ha, by rintro ⟨k1, cf, k2, h, -⟩; exact absurd h (by simp)⟩
      · exact fun h => h.1
    · rintro ⟨k1, cf, k2, h, -⟩
      exact absurd h (by simp)
  | cons cf rest ih =>
    intro absents skips hsub hftc
    have hftcr : ∀ c2 ∈ rest, ∀ gf ∈ gold, (fieldTypesConsistent codecFTC c2 gf).isOk = true :=
      fun c2 hc2 => hftc c2 (List.mem_cons_of_mem _ hc2)
    by_cases hu : underAny cf.aliasedKey skips = true
    · -- candidate is under a stop prefix: skipped
      have hst : stepSkip codecFTC gold skips cf = skips := by
        rw [stepSkip, if_pos hu]
      have huA : (skips.any fun p => akHasPfx cf.aliasedKey p) = true := hu
      have hloop : verifyLoop codecFTC gold (cf :: rest) absents skips =
          verifyLoop codecFTC gold rest absents skips := by
        rw [verifyLoop, if_pos huA]
      have hHUc : HasUnknown codecFTC gold skips (cf :: rest) ↔
          HasUnknown codecFTC gold skips rest := by
        rw [hasUnknown_cons, hst]
        simp [hu]
      have hihWH : ∀ a, WasHit codecFTC gold skips (cf :: rest) a ↔
          WasHit codecFTC gold skips rest a := by
        intro a
        rw [wasHit_cons, hst]
        simp [hu]
      have hsk : skipsAfter codecFTC gold skips (cf :: rest) =
          skipsAfter codecFTC gold skips rest := by
        rw [skipsAfter_cons, hst]
      have hi := ih absents skips hsub hftcr
      constructor
      · intro hnu
        obtain ⟨absF, hok, hmem⟩ := hi.1 (fun h => hnu (hHUc.mpr h))
        refine ⟨absF, by rw [hloop, hsk]; exact hok, fun a => ?_⟩
        rw [hmem a, hihWH a]
      · intro hhu
        obtain ⟨cf2, k1, k2, herr, hsplit, hund, hfind⟩ := hi.2 (hHUc.mp hhu)
        exact ⟨cf2, cf :: k1, k2, by rw [hloop]; exact herr, by rw [hsplit]; rfl,
          by rwa [skipsAfter_cons, hst], hfind⟩
    · have hu' : underAny cf.aliasedKey skips = false := by
        simpa using hu
      have huA : (skips.any fun p => akHasPfx cf.aliasedKey p) = false := hu'
      cases hfind : findStructField gold cf.aliasedKey with
      | none =>
        have hloop : verifyLoop codecFTC gold (cf :: rest) absents skips =
            .error (.unknownField cf) := by
          rw [verifyLoop, if_neg (by simp [huA])]
          simp only [hfind]
        constructor
        · intro hnu
          exact absurd (hasUnknown_cons codecFTC gold skips cf rest |>.mpr
            (Or.inl ⟨hu', hfind⟩)) hnu
        · intro _
          exact ⟨cf, [], rest, hloop, rfl, by simpa [skipsAfter_nil] using hu', hfind⟩
      | some gf =>
        have hgfm := findStructField_mem gold _ gf hfind
        have hok := hftc cf (List.mem_cons_self _ _) gf hgfm.1
        cases hftcv : fieldTypesConsistent codecFTC cf gf with
        | error e => rw [hftcv] at hok; simp [Except.isOk, Except.toBool] at hok
        | ok b =>
          have hst : stepSkip codecFTC gold skips cf =
              if b then skips ++ [cf.aliasedKey] else skips := by
            rw [stepSkip, if_neg (by simp [hu'])]
            simp only [hfind, hftcv]
            cases b <;> rfl
          have hloop : verifyLoop codecFTC gold (cf :: rest) absents skips =
              verifyLoop codecFTC gold rest (removeAbsentCandidate gf.aliasedKey absents)
                (if b then skips ++ [cf.aliasedKey] else skips) := by
            rw [verifyLoop, if_neg (by simp [huA])]
            simp only [hfind, hftcv]
          have hsubr : (removeAbsentCandidate gf.aliasedKey absents).Sublist gold :=
            (removeAbsent_sublist _ absents).trans hsub
          have hremove := removeAbsent_spec hnd hwf hunamb gf hgfm.1 absents hsub
          have hi := ih (removeAbsentCandidate gf.aliasedKey absents)
            (if b then skips ++ [cf.aliasedKey] else skips) hsubr hftcr
          have hHUiff : HasUnknown codecFTC gold skips (cf :: rest) ↔
              HasUnknown codecFTC gold (if b then skips ++ [cf.aliasedKey] else skips) rest := by
            rw [hasUnknown_cons, hst]
            constructor
            · rintro (⟨-, hf⟩ | h)
              · rw [hfind] at hf; exact absurd hf (by simp)
              · exact h
            · exact Or.inr
          have hsk : skipsAfter codecFTC gold skips (cf :: rest) =
              skipsAfter codecFTC gold (if b then skips ++ [cf.aliasedKey] else skips) rest := by
            rw [skipsAfter_cons, hst]
          constructor
          · intro hnu
            obtain ⟨absF, hokL, hmem⟩ := hi.1 (fun h => hnu (hHUiff.mpr h))
            refine ⟨absF, by rw [hloop, hsk]; exact hokL, fun a => ?_⟩
            rw [hmem a, hremove a]
            rw [wasHit_cons, hst]
            constructor
            · rintro ⟨⟨ha, hane⟩, hnw⟩
              refine ⟨ha, ?_⟩
              rintro (⟨-, gf2, hf2, haeq⟩ | hw)
              · rw [hfind] at hf2
                injection hf2 with hf2
                subst hf2
                rw [haeq] at hane
                exact absurd hane (by simp)
              · exact hnw hw
            · rintro ⟨ha, hnw⟩
              refine ⟨⟨ha, ?_⟩, fun hw => hnw (Or.inr hw)⟩
              by_contra hane
              rw [Bool.not_eq_false] at hane
              exact hnw (Or.inl ⟨hu', gf, hfind, hane⟩)
          · intro hhu
            obtain ⟨cf2, k1, k2, herr, hsplit, hund, hfindn⟩ := hi.2 (hHUiff.mp hhu)
            exact ⟨cf2, cf :: k1, k2, by rw [hloop]; exact herr, by rw [hsplit]; rfl,
              by rwa [skipsAfter_cons, hst], hfindn⟩

/-- Candidate and reference schemas for exercising the verifier: every
candidate key matches a reference key, but the types disagree and the
codec hook rejects the pair. -/
def c1FTC : SField → SField → Except String Bool := fun _ _ => .error "no"

def c1Check : List SField := [{ aliasedKey := [["a"]], typ := "bool", kind := "bool" }]

def c1Gold : List SField := [{ aliasedKey := [["a"]], typ := "string", kind := "string" }]

/-- C1, counterexample.  Every candidate field of c1Check has a
reference field equal to it under AliasedKey equality (so no
unknown-field situation arises), yet verifyFieldsConsistency does NOT
return without error: it fails with a type-mismatch error, because the
claim's "otherwise" clause overlooks the type-consistency check. -/
theorem c1_counterexample :
    (∀ cf ∈ c1Check, ∃ gf ∈ c1Gold, akEqual cf.aliasedKey gf.aliasedKey = true) ∧
    ¬ HasUnknown c1FTC c1Gold [] c1Check ∧
    verifyFieldsConsistency c1FTC c1Check c1Gold =
      .error (.typeMismatch { aliasedKey := [["a"]], typ := "bool", kind := "bool" }
        { aliasedKey := [["a"]], typ := "string", kind := "string" }) := by
  refine ⟨by decide, ?_, by rfl⟩
  rintro ⟨k1, cf, k2, hsplit, -, hfind⟩
  cases k1 with
  | nil =>
    rw [c1Check] at hsplit
    injection hsplit with h1 h2
    rw [← h1] at hfind
    simp [findStructField, c1Gold, akEqual, elemEqual, eqFold] at hfind
  | cons x xs =>
    rw [c1Check] at hsplit
    injection hsplit with h1 h2
    exact absurd h2.symm (by simp)

/-- C1, amended.  verifyFieldsConsistency, on a duplicate-free,
unambiguous reference schema whose keys match themselves, PROVIDED
every candidate/reference pair passes the type-consistency check:
if some candidate field not under the stop prefixes recorded before it
has no reference match, the verifier fails with an unknown-field error
naming such a field; otherwise it returns, without error, exactly the
reference fields never matched by a processed candidate field and not
under a recorded stop prefix. -/
theorem c1_amended (codecFTC : SField → SField → Except String Bool)
    (check gold : List SField)
    (hftc : ∀ cf ∈ check, ∀ gf ∈ gold, (fieldTypesConsistent codecFTC cf gf).isOk = true)
    (hwf : ∀ g ∈ gold, akEqual g.aliasedKey g.aliasedKey = true)
    (hunamb : GoldUnambiguous gold) (hnd : gold.Nodup) :
    (HasUnknown codecFTC gold [] check →
      ∃ cf, verifyFieldsConsistency codecFTC check gold = .error (.unknownField cf) ∧
        findStructField gold cf.aliasedKey = none) ∧
    (¬ HasUnknown codecFTC gold [] check →
      ∃ absent, verifyFieldsConsistency codecFTC check gold = .ok absent ∧
        ∀ g, g ∈ absent ↔ g ∈ gold ∧ ¬ WasHit codecFTC gold [] check g ∧
          underAny g.aliasedKey (skipsAfter codecFTC gold [] check) = false) := by
  have hs := verifyLoop_spec codecFTC hnd hwf hunamb check gold []
    (List.Sublist.refl gold) hftc
  constructor
  · intro hhu
    obtain ⟨cf, k1, k2, herr, -, -, hfind⟩ := hs.2 hhu
    refine ⟨cf, ?_, hfind⟩
    rw [verifyFieldsConsistency, herr]
  · intro hnu
    obtain ⟨absF, hok, hmem⟩ := hs.1 hnu
    refine ⟨_, by rw [verifyFieldsConsistency, hok], fun g => ?_⟩
    rw [List.mem_filter, hmem g]
    constructor
    · rintro ⟨⟨hg, hnw⟩, hfil⟩
      exact ⟨hg, hnw, by simpa [underAny] using hfil⟩
    · rintro ⟨hg, hnw, hund⟩
      exact ⟨⟨hg, hnw⟩, by simpa [underAny] using hund⟩

/-- Schemas for the amended C1 theorem's witness: the candidate key z
has no reference match. -/
def c1wFTC : SField → SField → Except String Bool := fun _ _ => .ok false

def c1wCheck : List SField := [{ aliasedKey := [["z"]], typ := "bool", kind := "bool" }]

def c1wGold : List SField := [{ aliasedKey := [["a"]], typ := "string", kind := "string" }]

/-- C1, witness for the amended theorem at a concrete schema pair with
a vestigial candidate field. -/
theorem c1_witness :
    ∃ cf, verifyFieldsConsistency c1wFTC c1wCheck c1wGold = .error (.unknownField cf) ∧
      findStructField c1wGold cf.aliasedKey = none :=
  (c1_amended c1wFTC c1wCheck c1wGold (by decide) (by decide)
      (by unfold GoldUnambiguous; decide) (by decide)).1
    ⟨[], { aliasedKey := [["z"]], typ := "bool", kind := "bool" }, [], rfl, by decide, by decide⟩

theorem eqFold_iff (a b : String) :
    eqFold a b = true ↔ a.data.map Char.toLower = b.data.map Char.toLower := by
  rw [eqFold]
  exact beq_iff_eq

theorem eqFold_refl (a : String) : eqFold a a = true := by
  rw [eqFold_iff]

theorem eqFold_symm {a b : String} (h : eqFold a b = true) : eqFold b a = true := by
  rw [eqFold_iff] at h ⊢
  exact h.symm

theorem eqFold_trans {a b c : String} (h1 : eqFold a b = true) (h2 : eqFold b c = true) :
    eqFold a c = true := by
  rw [eqFold_iff] at h1 h2 ⊢
  exact h1.trans h2

/-- A scalar document value: one Go's codecs decode a non-section,
non-null TOML/JSON value into. -/
def GoVal.isScalar : GoVal → Bool
  | .vbool _ => true
  | .vint _ => true
  | .vstr _ => true
  | _ => false

/-- A flat decoded document (or accumulator): keys pairwise distinct
under case folding, every value scalar. -/
def FlatDoc (m : GoMap) : Prop :=
  (m.map Prod.fst).Pairwise (fun a b => eqFold a b = false) ∧
  ∀ p ∈ m, p.2.isScalar = true

/-- Case-folded (field-identity) lookup: the value stored under the
identity class of s, regardless of spelling. -/
def findFold (m : GoMap) (s : String) : Option GoVal :=
  (m.find? fun p => eqFold p.1 s).map Prod.snd

/-- The last document of the list that supplies the field identity s,
together with the value it supplies. -/
def lastWrite : List (String × GoMap) → String → Option (String × GoVal)
  | [], _ => none
  | d :: rest, s =>
    match lastWrite rest s with
    | some r => some r
    | none =>
      match findFold d.2 s with
      | some v => some (d.1, v)
      | none => none

theorem isScalar_kindName {v : GoVal} (h : v.isScalar = true) :
    (v.kindName == "map") = false ∧ (v.kindName == "struct") = false := by
  cases v <;> simp [GoVal.isScalar] at h <;> constructor <;> rfl

theorem isScalar_unwrapPtrs {v : GoVal} (h : v.isScalar = true) : unwrapPtrs v = v := by
  cases v <;> simp [GoVal.isScalar] at h <;> rfl

theorem makeFieldE_scalar (key : AKey) (s : String) {v : GoVal} (h : v.isScalar = true) :
    makeFieldE none key s v =
      some ({ aliasedKey := key ++ [[s]], optional := false,
              typ := v.typeName, kind := v.kindName, expectedType := "" }, none) := by
  cases v <;> simp [GoVal.isScalar] at h <;> rfl

theorem elemEqual_single (a b : String) : elemEqual [a] [b] = eqFold a b := by
  simp [elemEqual]

/-- The existing map spelling a single-component write descends with
(setMapGo's keyElem at the last level). -/
def mKeyElem (m : GoMap) (k : String) : String :=
  match m.find? (fun p => elemEqual [k] [p.1]) with
  | some p => p.1
  | none => k

theorem mKeyElem_fold (m : GoMap) (k : String) : eqFold k (mKeyElem m k) = true := by
  rw [mKeyElem]
  cases hf : m.find? (fun p => elemEqual [k] [p.1]) with
  | none => exact eqFold_refl k
  | some p =>
    have := List.find?_some hf
    rw [elemEqual_single] at this
    exact this

theorem setMapGo_single (m : GoMap) (k : String) (v : GoVal) :
    setMapGo m [[k]] v = (updateAssoc m (mKeyElem m k) v, false) := by
  rw [setMapGo, mKeyElem]
  cases hf : m.find? (fun p => elemEqual [k] [p.1]) <;> simp [hf]

theorem setMapByKey_single (m : GoMap) (k : String) (v : GoVal) :
    setMapByKey m [k] v [] = (updateAssoc m (mKeyElem m k) v, false) := by
  rw [setMapByKey]
  have hr : resolveWriteKey [] [k] = [[k]] := rfl
  rw [hr, setMapGo_single]

theorem findFold_updateAssoc (m : GoMap) (k : String) (v : GoVal) (s : String) :
    findFold (updateAssoc m (mKeyElem m k) v) s =
      if eqFold k s then some v else findFold m s := by
  induction m with
  | nil =>
    simp only [mKeyElem, List.find?_nil, updateAssoc, findFold, List.find?_cons]
    by_cases h : eqFold k s = true
    · simp [h]
    · simp only [Bool.not_eq_true] at h
      simp [h]
  | cons p rest ih =>
    obtain ⟨k0, v0⟩ := p
    by_cases h0 : eqFold k k0 = true
    · have hke : mKeyElem ((k0, v0) :: rest) k = k0 := by
        rw [mKeyElem, List.find?_cons]
        simp [elemEqual_single, h0]
      rw [hke, updateAssoc]
      simp only [beq_self_eq_true, if_true]
      by_cases hs : eqFold k s = true
      · have hk0s : eqFold k0 s = true := eqFold_trans (eqFold_symm h0) hs
        simp [findFold, List.find?_cons, hk0s, hs]
      · have hk0s : eqFold k0 s = false := by
          by_contra hne
          rw [Bool.not_eq_false] at hne
          exact hs (eqFold_trans h0 hne)
        simp only [Bool.not_eq_true] at hs
        simp [findFold, List.find?_cons, hk0s, hs]
    · have h0' : eqFold k k0 = false := by simpa using h0
      have hke : mKeyElem ((k0, v0) :: rest) k = mKeyElem rest k := by
        rw [mKeyElem, mKeyElem, List.find?_cons]
        simp [elemEqual_single, h0']
      have hne : (k0 == mKeyElem rest k) = false := by
        by_contra hb
        rw [Bool.not_eq_false, beq_iff_eq] at hb
        rw [hb] at h0'
        rw [mKeyElem_fold rest k] at h0'
        exact absurd h0' (by simp)
      rw [hke, updateAssoc, hne]
      simp only [Bool.false_eq_true, if_false]
      by_cases hs0 : eqFold k0 s = true
      · have hks : eqFold k s = false := by
          by_contra hb
          rw [Bool.not_eq_false] at hb
          rw [eqFold_trans hb (eqFold_symm hs0)] at h0'
          exact absurd h0' (by simp)
        simp [findFold, List.find?_cons, hs0, hks]
      · have hs0' : eqFold k0 s = false := by simpa using hs0
        have hlhs : findFold ((k0, v0) :: updateAssoc rest (mKeyElem rest k) v) s =
            findFold (updateAssoc rest (mKeyElem rest k) v) s := by
          simp [findFold, List.find?_cons, hs0']
        have hrhs : findFold ((k0, v0) :: rest) s = findFold rest s := by
          simp [findFold, List.find?_cons, hs0']
        rw [hlhs, hrhs, ih]

/-- The sorted key order getStructFieldsRecursive visits a map in. -/
def sortedK (m : GoMap) : List String :=
  (m.map Prod.fst).insertionSort (fun a b => strLE a b = true)

/-- The leaf descriptor the extractor produces for key k of a flat map. -/
def mkFlatField (m : GoMap) (k : String) : SField :=
  { aliasedKey := [[k]]
    typ := ((lookupLit m k).getD .vnil).typeName
    kind := ((lookupLit m k).getD .vnil).kindName }

theorem lookupLit_of_memFst {m : GoMap} {k : String} (h : k ∈ m.map Prod.fst) :
    ∃ v, lookupLit m k = some v ∧ (k, v) ∈ m := by
  induction m with
  | nil => simp at h
  | cons p rest ih =>
    obtain ⟨k0, v0⟩ := p
    by_cases hk : k0 = k
    · subst hk
      exact ⟨v0, by simp [lookupLit], by simp⟩
    · have h2 : k ∈ rest.map Prod.fst := by
        simp only [List.map_cons, List.mem_cons] at h
        rcases h with h | h
        · exact absurd h.symm hk
        · exact h
      obtain ⟨v, hv, hm⟩ := ih h2
      refine ⟨v, ?_, List.mem_cons_of_mem _ hm⟩
      rw [lookupLit]
      simp only [show (k0 == k) = false by simpa using hk, Bool.false_eq_true, if_false]
      exact hv

theorem gsfrMapKeys_flat (m : GoMap) (hs : ∀ p ∈ m, p.2.isScalar = true) :
    ∀ ks, (∀ k ∈ ks, k ∈ m.map Prod.fst) →
      gsfrMapKeys m ks [] = ks.map (mkFlatField m) := by
  intro ks
  induction ks with
  | nil => intro _; rw [gsfrMapKeys]; rfl
  | cons k ks ih =>
    intro hmem
    obtain ⟨v, hv, hvm⟩ := lookupLit_of_memFst (hmem k (List.mem_cons_self _ _))
    have hsc : v.isScalar = true := hs (k, v) hvm
    have hmk := makeFieldE_scalar [] k hsc
    rw [List.nil_append] at hmk
    rw [gsfrMapKeys_cons_leaf m k ks [] v _ hv hmk,
      ih (fun k2 hk2 => hmem k2 (List.mem_cons_of_mem _ hk2))]
    congr 1
    rw [mkFlatField, hv]
    rfl

theorem GetStructFields_flat (m : GoMap) (hs : ∀ p ∈ m, p.2.isScalar = true) :
    GetStructFields (.vmap m) = (sortedK m).map (mkFlatField m) := by
  rw [GetStructFields, gsfr]
  exact gsfrMapKeys_flat m hs (sortedK m)
    (fun k hk => (List.perm_insertionSort _ _).mem_iff.mp hk)

theorem mergeLoop_flat (m : GoMap) (hs : ∀ p ∈ m, p.2.isScalar = true) (dstf : List SField) :
    ∀ (ks : List String) (dst : GoMap), (∀ k ∈ ks, k ∈ m.map Prod.fst) →
      ks.Pairwise (fun a b => eqFold a b = false) →
      ∃ acc, mergeLoop [] dstf m (ks.map (mkFlatField m)) dst =
          (acc, ks.map (fun k => [k]), false) ∧
        ∀ s, findFold acc s =
          match ks.find? (fun k => eqFold k s) with
          | some k => some ((lookupLit m k).getD .vnil)
          | none => findFold dst s := by
  intro ks
  induction ks with
  | nil =>
    intro dst _ _
    exact ⟨dst, rfl, fun s => rfl⟩
  | cons k ks ih =>
    intro dst hmem hpw
    obtain ⟨hhead, htail⟩ := List.pairwise_cons.mp hpw
    obtain ⟨v, hv, hvm⟩ := lookupLit_of_memFst (hmem k (List.mem_cons_self _ _))
    have hsc : v.isScalar = true := hs (k, v) hvm
    have hskip : mergeSkip dstf (mkFlatField m k) (ks.map (mkFlatField m)) = false := by
      have hkind : (mkFlatField m k).kind = v.kindName := by
        simp [mkFlatField, hv]
      rw [mergeSkip.eq_def, hkind, (isScalar_kindName hsc).1, Bool.false_and]
    obtain ⟨acc, hml, hff⟩ := ih (updateAssoc dst (mKeyElem dst k) v)
      (fun k2 hk2 => hmem k2 (List.mem_cons_of_mem _ hk2)) htail
    refine ⟨acc, ?_, ?_⟩
    · rw [List.map_cons, mergeLoop, hskip]
      simp only [Bool.false_eq_true, if_false,
        show (mkFlatField m k).aliasedKey.map (fun e => e.headD "") = [k] from rfl,
        show walkMap m [k] = lookupLit m k from rfl, hv, Option.getD_some,
        setMapByKey_single, hml]
      rfl
    · intro s
      rw [hff s]
      by_cases hks : eqFold k s = true
      · have hnone : ks.find? (fun k2 => eqFold k2 s) = none := by
          rw [List.find?_eq_none]
          intro k2 hk2
          simp only [Bool.not_eq_true]
          by_contra hb
          rw [Bool.not_eq_false] at hb
          have := eqFold_trans hks (eqFold_symm hb)
          rw [hhead k2 hk2] at this
          exact absurd this (by simp)
        rw [hnone]
        simp only [List.find?_cons, hks, findFold_updateAssoc, if_pos hks, hv]
        rfl
      · have hks' : eqFold k s = false := by simpa using hks
        rw [List.find?_cons]
        simp only [hks', Bool.false_eq_true]
        cases hf2 : ks.find? (fun k2 => eqFold k2 s) with
        | some k2 => rfl
        | none => rw [findFold_updateAssoc, if_neg (by simp [hks'])]

theorem eqFold_false_symm {a b : String} (h : eqFold a b = false) : eqFold b a = false := by
  by_contra hb
  rw [Bool.not_eq_false] at hb
  rw [eqFold_symm hb] at h
  exact absurd h (by simp)

theorem findFold_none_iff (m : GoMap) (s : String) :
    findFold m s = none ↔ ∀ k ∈ m.map Prod.fst, eqFold k s = false := by
  rw [findFold, Option.map_eq_none', List.find?_eq_none]
  constructor
  · intro h k hk
    obtain ⟨p, hp, hpk⟩ := List.mem_map.mp hk
    have := h p hp
    simp only [Bool.not_eq_true] at this
    rw [← hpk]
    exact this
  · intro h p hp
    simp only [Bool.not_eq_true]
    exact h p.1 (List.mem_map.mpr ⟨p, hp, rfl⟩)

theorem findFold_eq_lookupLit (m : GoMap)
    (hpw : (m.map Prod.fst).Pairwise fun a b => eqFold a b = false) (k s : String)
    (hks : eqFold k s = true) (hmem : k ∈ m.map Prod.fst) :
    findFold m s = lookupLit m k := by
  induction m with
  | nil => rfl
  | cons p rest ih =>
    obtain ⟨k0, v0⟩ := p
    simp only [List.map_cons, List.pairwise_cons] at hpw
    obtain ⟨hhead, htail⟩ := hpw
    by_cases h0 : eqFold k0 s = true
    · have hkk0 : k = k0 := by
        rcases List.mem_cons.mp (by simpa only [List.map_cons] using hmem) with h | h
        · exact h
        · have := eqFold_trans h0 (eqFold_symm hks)
          rw [hhead k h] at this
          exact absurd this (by simp)
      subst hkk0
      simp [findFold, List.find?_cons, h0, lookupLit]
    · have h0' : eqFold k0 s = false := by simpa using h0
      have hkne : (k0 == k) = false := by
        by_contra hb
        rw [Bool.not_eq_false, beq_iff_eq] at hb
        rw [← hb] at hks
        rw [hks] at h0'
        exact absurd h0' (by simp)
      have hmem2 : k ∈ rest.map Prod.fst := by
        rcases List.mem_cons.mp (by simpa only [List.map_cons] using hmem) with h | h
        · rw [h] at hkne; simp at hkne
        · exact h
      have hlhs : findFold ((k0, v0) :: rest) s = findFold rest s := by
        simp [findFold, List.find?_cons, h0']
      rw [hlhs, lookupLit, hkne]
      simp only [Bool.false_eq_true, if_false]
      exact ih htail hmem2

theorem sortedK_pairwise (m : GoMap)
    (hpw : (m.map Prod.fst).Pairwise fun a b => eqFold a b = false) :
    (sortedK m).Pairwise (fun a b => eqFold a b = false) :=
  ((List.perm_insertionSort _ _).pairwise_iff fun h => eqFold_false_symm h).mpr hpw

theorem mergeMaps_flat (dst m : GoMap) (hfl : FlatDoc m) :
    ∃ acc, mergeMaps dst m [] = (acc, (sortedK m).map (fun k => [k]), false) ∧
      ∀ s, findFold acc s =
        match findFold m s with
        | some v => some v
        | none => findFold dst s := by
  obtain ⟨hpw, hs⟩ := hfl
  obtain ⟨acc, hml, hff⟩ := mergeLoop_flat m hs (GetStructFields (.vmap dst)) (sortedK m) dst
    (fun k hk => (List.perm_insertionSort _ _).mem_iff.mp hk) (sortedK_pairwise m hpw)
  refine ⟨acc, ?_, fun s => ?_⟩
  · rw [mergeMaps, GetStructFields_flat m hs]
    exact hml
  · rw [hff s]
    cases hffm : findFold m s with
    | none =>
      have hnone : (sortedK m).find? (fun k => eqFold k s) = none := by
        rw [List.find?_eq_none]
        intro k hk
        simp only [Bool.not_eq_true]
        exact (findFold_none_iff m s).mp hffm k ((List.perm_insertionSort _ _).mem_iff.mp hk)
      rw [hnone]
    | some v =>
      cases hf : (sortedK m).find? (fun k => eqFold k s) with
      | none =>
        have : findFold m s = none := by
          rw [findFold_none_iff]
          intro k hk
          have hnk := List.find?_eq_none.mp hf k ((List.perm_insertionSort _ _).mem_iff.mpr hk)
          simpa using hnk
        rw [this] at hffm
        exact absurd hffm (by simp)
      | some k =>
        have hkp := List.find?_some hf
        have hkm : k ∈ m.map Prod.fst :=
          (List.perm_insertionSort _ _).mem_iff.mp (List.mem_of_find?_eq_some hf)
        have := findFold_eq_lookupLit m hpw k s hkp hkm
        rw [hffm] at this
        show some ((lookupLit m k).getD .vnil) = some v
        rw [← this]
        rfl

theorem akEqual_single (a b : String) : akEqual [[a]] [[b]] = eqFold a b := by
  simp [akEqual, elemEqual_single]

/-- The provenance entry recorded for the field identity of s. -/
def provFor (provs : List Prov) (s : String) : Option Prov :=
  provs.find? fun p => akEqual [[s]] p.aliasedKey

/-- Every provenance key written through the map-destination path is a
single-component single-spelling key. -/
def ProvShape (provs : List Prov) : Prop :=
  ∀ p ∈ provs, ∃ k0, p.aliasedKey = [[k0]]

/-- No two provenance entries share a field identity. -/
def ProvDistinct (provs : List Prov) : Prop :=
  provs.Pairwise fun p q => akEqual p.aliasedKey q.aliasedKey = false

theorem setProvLoop_mem_ak (ak : AKey) (lbl : String) :
    ∀ ps, ∀ q ∈ setProvLoop ps ak lbl, q.aliasedKey = ak ∨ ∃ r ∈ ps, q.aliasedKey = r.aliasedKey := by
  intro ps
  induction ps with
  | nil =>
    intro q hq
    rw [setProvLoop] at hq
    simp only [List.mem_singleton] at hq
    subst hq
    exact Or.inl rfl
  | cons p rest ih =>
    intro q hq
    rw [setProvLoop] at hq
    split at hq
    · rcases List.mem_cons.mp hq with h | h
      · subst h
        exact Or.inr ⟨p, List.mem_cons_self _ _, rfl⟩
      · exact Or.inr ⟨q, List.mem_cons_of_mem _ h, rfl⟩
    · rcases List.mem_cons.mp hq with h | h
      · subst h
        exact Or.inr ⟨q, List.mem_cons_self _ _, rfl⟩
      · rcases ih q h with h2 | ⟨r, hr, h2⟩
        · exact Or.inl h2
        · exact Or.inr ⟨r, List.mem_cons_of_mem _ hr, h2⟩

theorem setProvLoop_spec (k lbl : String) :
    ∀ ps, ProvShape ps → ProvDistinct ps →
      ProvShape (setProvLoop ps [[k]] lbl) ∧
      ProvDistinct (setProvLoop ps [[k]] lbl) ∧
      ∀ s, (provFor (setProvLoop ps [[k]] lbl) s).map Prov.src =
        if eqFold s k then some lbl else (provFor ps s).map Prov.src := by
  intro ps
  induction ps with
  | nil =>
    intro _ _
    refine ⟨fun p hp => ?_, ?_, fun s => ?_⟩
    · rw [setProvLoop] at hp
      simp only [List.mem_singleton] at hp
      subst hp
      exact ⟨k, rfl⟩
    · rw [setProvLoop]
      exact List.pairwise_singleton _ _
    · rw [setProvLoop, provFor, provFor]
      simp only [List.find?_cons, List.find?_nil, akEqual_single]
      by_cases h : eqFold s k = true
      · simp [h]
      · have h2 : eqFold s k = false := by simpa using h
        simp [h2]
  | cons p rest ih =>
    intro hshape hpw
    have hshr : ProvShape rest := fun q hq => hshape q (List.mem_cons_of_mem _ hq)
    obtain ⟨hhead, htail⟩ := List.pairwise_cons.mp hpw
    obtain ⟨k0, hk0⟩ := hshape p (List.mem_cons_self _ _)
    by_cases hm : akEqual [[k]] p.aliasedKey = true
    · have hkk0 : eqFold k k0 = true := by
        rw [hk0, akEqual_single] at hm
        exact hm
      have hloop : setProvLoop (p :: rest) [[k]] lbl = { p with src := lbl } :: rest := by
        rw [setProvLoop, if_pos hm]
      rw [hloop]
      refine ⟨fun q hq => ?_, ?_, fun s => ?_⟩
      · rcases List.mem_cons.mp hq with h | h
        · subst h
          exact ⟨k0, hk0⟩
        · exact hshape q (List.mem_cons_of_mem _ h)
      · rw [ProvDistinct, List.pairwise_cons]
        exact ⟨fun q hq => hhead q hq, htail⟩
      · by_cases hs : eqFold s k = true
        · have hsk0 : eqFold s k0 = true := eqFold_trans hs hkk0
          rw [if_pos hs, provFor, List.find?_cons]
          simp [hk0, akEqual_single, hsk0]
        · have hs' : eqFold s k = false := by simpa using hs
          have hsk0 : eqFold s k0 = false := by
            by_contra hb
            rw [Bool.not_eq_false] at hb
            rw [eqFold_trans hb (eqFold_symm hkk0)] at hs'
            exact absurd hs' (by simp)
          rw [if_neg (by simp [hs']), provFor, provFor, List.find?_cons, List.find?_cons]
          simp [hk0, akEqual_single, hsk0]
    · have hm' : akEqual [[k]] p.aliasedKey = false := by simpa using hm
      have hkk0 : eqFold k k0 = false := by
        rw [hk0, akEqual_single] at hm'
        exact hm'
      have hloop : setProvLoop (p :: rest) [[k]] lbl = p :: setProvLoop rest [[k]] lbl := by
        rw [setProvLoop, if_neg (by simp [hm'])]
      obtain ⟨ihsh, ihpw, ihff⟩ := ih hshr htail
      rw [hloop]
      refine ⟨fun q hq => ?_, ?_, fun s => ?_⟩
      · rcases List.mem_cons.mp hq with h | h
        · subst h
          exact ⟨k0, hk0⟩
        · exact ihsh q h
      · rw [ProvDistinct, List.pairwise_cons]
        refine ⟨fun q hq => ?_, ihpw⟩
        rcases setProvLoop_mem_ak [[k]] lbl rest q hq with h | ⟨r, hr, h⟩
        · rw [h, hk0, akEqual_single]
          exact eqFold_false_symm hkk0
        · rw [h]
          exact hhead r hr
      · by_cases hps : akEqual [[s]] p.aliasedKey = true
        · have hsk0 : eqFold s k0 = true := by
            rw [hk0, akEqual_single] at hps
            exact hps
          have hs' : eqFold s k = false := by
            by_contra hb
            rw [Bool.not_eq_false] at hb
            have := eqFold_trans (eqFold_symm hb) hsk0
            rw [hkk0] at this
            exact absurd this (by simp)
          rw [if_neg (by simp [hs']), provFor, provFor, List.find?_cons, List.find?_cons]
          simp [hps]
        · have hps' : akEqual [[s]] p.aliasedKey = false := by simpa using hps
          have hL : provFor (p :: setProvLoop rest [[k]] lbl) s =
              provFor (setProvLoop rest [[k]] lbl) s := by
            rw [provFor, List.find?_cons]
            simp [hps', provFor]
          have hR : provFor (p :: rest) s = provFor rest s := by
            rw [provFor, List.find?_cons]
            simp [hps', provFor]
          rw [hL, hR]
          exact ihff s

theorem provFoldl_spec (lbl : String) :
    ∀ (ks : List String) (ps : List Prov), ProvShape ps → ProvDistinct ps →
      ProvShape ((ks.map fun k => [k]).foldl (fun a kk => setProvenance [] a kk lbl) ps) ∧
      ProvDistinct ((ks.map fun k => [k]).foldl (fun a kk => setProvenance [] a kk lbl) ps) ∧
      ∀ s, (provFor ((ks.map fun k => [k]).foldl
            (fun a kk => setProvenance [] a kk lbl) ps) s).map Prov.src =
        if ks.any (fun k => eqFold s k) then some lbl else (provFor ps s).map Prov.src := by
  intro ks
  induction ks with
  | nil =>
    intro ps hsh hpw
    refine ⟨hsh, hpw, fun s => ?_⟩
    rw [List.any_nil, if_neg (by simp)]
    rfl
  | cons k ks ih =>
    intro ps hsh hpw
    have hsp : setProvenance [] ps [k] lbl = setProvLoop ps [[k]] lbl := rfl
    obtain ⟨sh1, pw1, ff1⟩ := setProvLoop_spec k lbl ps hsh hpw
    obtain ⟨sh2, pw2, ff2⟩ := ih (setProvLoop ps [[k]] lbl) sh1 pw1
    rw [List.map_cons, List.foldl_cons, hsp]
    refine ⟨sh2, pw2, fun s => ?_⟩
    rw [ff2 s, ff1 s, List.any_cons]
    by_cases h2 : ks.any (fun k2 => eqFold s k2) = true
    · rw [if_pos h2, if_pos (by rw [h2]; simp)]
    · have h2' : ks.any (fun k2 => eqFold s k2) = false := by simpa using h2
      rw [if_neg (by simp [h2'])]
      by_cases hk : eqFold s k = true
      · rw [if_pos hk, if_pos (by simp [hk])]
      · have hk' : eqFold s k = false := by simpa using hk
        rw [if_neg (by simp [hk']), if_neg (by simp [hk', h2'])]

theorem processDoc_flat (st : LoadState) (lbl : String) (m : GoMap) (hfl : FlatDoc m)
    (hsh : ProvShape st.provs) (hpw : ProvDistinct st.provs) :
    ProvShape (processDoc [] st (lbl, m)).provs ∧
    ProvDistinct (processDoc [] st (lbl, m)).provs ∧
    (∀ s, findFold (processDoc [] st (lbl, m)).accum s =
      match findFold m s with
      | some v => some v
      | none => findFold st.accum s) ∧
    (∀ s, (provFor (processDoc [] st (lbl, m)).provs s).map Prov.src =
      match findFold m s with
      | some _ => some lbl
      | none => (provFor st.provs s).map Prov.src) := by
  obtain ⟨acc, hmm, hff⟩ := mergeMaps_flat st.accum m hfl
  have hpd : processDoc [] st (lbl, m) =
      { accum := acc,
        provs := ((sortedK m).map fun k => [k]).foldl
          (fun a kk => setProvenance [] a kk lbl) st.provs } := by
    rw [processDoc, hmm]
  obtain ⟨sh2, pw2, ff2⟩ := provFoldl_spec lbl (sortedK m) st.provs hsh hpw
  rw [hpd]
  refine ⟨sh2, pw2, fun s => hff s, fun s => ?_⟩
  rw [ff2 s]
  cases hffm : findFold m s with
  | none =>
    rw [if_neg ?hnone]
    case hnone =>
      simp only [List.any_eq_true, not_exists, not_and]
      intro k hk
      have := (findFold_none_iff m s).mp hffm k ((List.perm_insertionSort _ _).mem_iff.mp hk)
      simp [eqFold_false_symm this]
  | some v =>
    rw [if_pos ?hsome]
    case hsome =>
      rw [List.any_eq_true]
      rw [findFold] at hffm
      cases hfind : m.find? (fun p => eqFold p.1 s) with
      | none => rw [hfind] at hffm; exact absurd hffm (by simp)
      | some p =>
        have hps : eqFold p.1 s = true := by simpa using List.find?_some hfind
        refine ⟨p.1, ?_, eqFold_symm hps⟩
        exact (List.perm_insertionSort _ _).mem_iff.mpr
          (List.mem_map.mpr ⟨p, List.mem_of_find?_eq_some hfind, rfl⟩)

theorem processDocs_flat :
    ∀ (docs : List (String × GoMap)) (st : LoadState), (∀ d ∈ docs, FlatDoc d.2) →
      ProvShape st.provs → ProvDistinct st.provs →
      ProvShape (processDocs [] docs st).provs ∧
      ProvDistinct (processDocs [] docs st).provs ∧
      ∀ s,
        (findFold (processDocs [] docs st).accum s =
          match lastWrite docs s with
          | some r => some r.2
          | none => findFold st.accum s) ∧
        ((provFor (processDocs [] docs st).provs s).map Prov.src =
          match lastWrite docs s with
          | some r => some r.1
          | none => (provFor st.provs s).map Prov.src) := by
  intro docs
  induction docs with
  | nil =>
    intro st _ hsh hpw
    exact ⟨hsh, hpw, fun s => ⟨rfl, rfl⟩⟩
  | cons d docs ih =>
    intro st hfl hsh hpw
    obtain ⟨lbl, m⟩ := d
    obtain ⟨sh1, pw1, ffA, ffP⟩ :=
      processDoc_flat st lbl m (hfl _ (List.mem_cons_self _ _)) hsh hpw
    have hstep : processDocs [] ((lbl, m) :: docs) st =
        processDocs [] docs (processDoc [] st (lbl, m)) := rfl
    obtain ⟨sh2, pw2, hO⟩ := ih (processDoc [] st (lbl, m))
      (fun d2 hd2 => hfl d2 (List.mem_cons_of_mem _ hd2)) sh1 pw1
    rw [hstep]
    refine ⟨sh2, pw2, fun s => ?_⟩
    obtain ⟨h1, h2⟩ := hO s
    constructor
    · rw [h1, lastWrite]
      cases hLW : lastWrite docs s with
      | some r => rfl
      | none =>
        rw [ffA s]
        cases hFM : findFold m s with
        | some v => rfl
        | none => rfl
    · rw [h2, lastWrite]
      cases hLW : lastWrite docs s with
      | some r => rfl
      | none =>
        rw [ffP s]
        cases hFM : findFold m s with
        | some v => rfl
        | none => rfl

/-- Conflicting supplies of the field identity x.y across three
documents: D1 sets x.y = 1 (a section x holding y), D2 overwrites x
with the scalar 7, D3 sets x.y = 2 again. -/
def c3d1 : String × GoMap := ("D1", [("x", .vmap [("y", .vint 1)])])

def c3d2 : String × GoMap := ("D2", [("x", .vint 7)])

def c3d3 : String × GoMap := ("D3", [("x", .vmap [("y", .vint 2)])])

/-- C3, counterexample.  The field identity x.y is supplied by two
documents, D1 (value 1) and D3 (value 2, the last supplier); after
processing D1, D2, D3 in order the provenance entry for x.y names D3,
but the accumulated map holds NO value at x.y at all — D3's write was
discarded as a structure conflict against D2's scalar x — so the
accumulated value does not come from the last document that supplied
the key. -/
theorem c3_counterexample :
    walkMap c3d1.2 ["x", "y"] = some (.vint 1) ∧
    walkMap c3d3.2 ["x", "y"] = some (.vint 2) ∧
    (processDocs [] [c3d1, c3d2, c3d3] ⟨[], []⟩).provs =
      [{ aliasedKey := [["x"], ["y"]], key := ["x", "y"], src := "D3" },
       { aliasedKey := [["x"]], key := ["x"], src := "D2" }] ∧
    walkMap (processDocs [] [c3d1, c3d2, c3d3] ⟨[], []⟩).accum ["x", "y"] = none := by
  refine ⟨rfl, rfl, ?_, ?_⟩ <;>
  simp [c3d1, c3d2, c3d3, processDocs, processDoc, mergeMaps, mergeLoop, mergeSkip,
    GetStructFields, gsfr, gsfrMapKeys, makeFieldE, unwrapPtrs, lookupLit, GoVal.kindName,
    GoVal.typeName, GoVal.implementsTU, List.insertionSort, List.orderedInsert, setMapByKey,
    setMapGo, resolveWriteKey, resolveWriteKeyLoop, findStructField, aliasedKeyFromKey,
    keyFromAliasedKey, walkMap, akHasPfx, akEqual, elemEqual, eqFold, updateAssoc, splitTag,
    strLE, charListLE, setProvenance, setProvLoop]

/-- C3, amended.  Restricted to flat documents (scalar values, keys
distinct under case folding — the shape of the claim's own example,
where no structure conflict can discard a write): for every field
identity that any document supplies, the accumulated value and the
recorded provenance label both come from the LAST document that
supplied it, and the provenance list never holds two entries for the
same field identity.  (For nested documents a discarded conflicting
write breaks the value half of the claim; see the counterexample.) -/
theorem c3_amended (docs : List (String × GoMap)) (hfl : ∀ d ∈ docs, FlatDoc d.2) :
    (∀ s lbl v, lastWrite docs s = some (lbl, v) →
      findFold (processDocs [] docs ⟨[], []⟩).accum s = some v ∧
      ∃ p ∈ (processDocs [] docs ⟨[], []⟩).provs,
        akEqual [[s]] p.aliasedKey = true ∧ p.src = lbl) ∧
    (processDocs [] docs ⟨[], []⟩).provs.Pairwise
      (fun p q => akEqual p.aliasedKey q.aliasedKey = false) := by
  obtain ⟨sh, pw, hO⟩ := processDocs_flat docs ⟨[], []⟩ hfl
    (fun p hp => absurd hp (List.not_mem_nil p)) List.Pairwise.nil
  refine ⟨fun s lbl v hlw => ?_, pw⟩
  obtain ⟨h1, h2⟩ := hO s
  rw [hlw] at h1 h2
  refine ⟨h1, ?_⟩
  cases hpf : provFor (processDocs [] docs ⟨[], []⟩).provs s with
  | none => rw [hpf] at h2; exact absurd h2 (by simp)
  | some p =>
    rw [hpf] at h2
    rw [provFor] at hpf
    have hak : akEqual [[s]] p.aliasedKey = true := by simpa using List.find?_some hpf
    refine ⟨p, List.mem_of_find?_eq_some hpf, hak, ?_⟩
    simpa using h2

/-- The claim's own example documents, in supply order D1 then D2. -/
def c3wDocs : List (String × GoMap) :=
  [("D1", [("x", .vint 1)]), ("D2", [("x", .vint 2)])]

/-- C3, witness for the amended theorem: merging D1 with x=1 then D2
with x=2 yields x=2 with a provenance entry naming D2. -/
theorem c3_witness :
    findFold (processDocs [] c3wDocs ⟨[], []⟩).accum "x" = some (.vint 2) ∧
    ∃ p ∈ (processDocs [] c3wDocs ⟨[], []⟩).provs,
      akEqual [["x"]] p.aliasedKey = true ∧ p.src = "D2" :=
  (c3_amended c3wDocs (by
      intro d hd
      rw [FlatDoc]
      rcases List.mem_cons.mp hd with h | h
      · rw [h]; exact ⟨by decide, by decide⟩
      · rcases List.mem_cons.mp h with h2 | h2
        · rw [h2]; exact ⟨by decide, by decide⟩
        · exact absurd h2 (List.not_mem_nil d))).1
    "x" "D2" (.vint 2) rfl
